import Mathlib

/-!
Verification of the simple-buffers schema compiler front end.

The definitions below are a shallow embedding of the Rust sources:
* `simplebuffers-core/src/dtypes.rs` (resolved-schema data model),
* `simplebuffers-compiler/src/compiler/parse.rs` (semantic compiler),
* `simplebuffers-compiler/src/reserved_identifiers.rs` (reserved-word check),
* `src/tokenizer/mod.rs` (lexer).

Rust `usize`/`u64`/`u8` values are modelled as `Nat` (overflow is checked
explicitly where the source checks it), `Vec` as `List`, `HashMap` as an
association list (keys are unique by construction, so lookup agrees with the
hash map), and fallible functions return `Except`.  Compiler errors carry only
their message text; the token/location payload of `CompilerError` is
diagnostic metadata that never influences control flow.  The ANSI styling
applied by the `colored` crate is dropped from message strings.
-/

namespace SimpleBuffers

/-! ## Data model (`simplebuffers-core/src/dtypes.rs`) -/

/-- A primitive type (`Primitive` in dtypes.rs). -/
inductive Primitive where
  | bool | i8 | i16 | i32 | i64 | u8 | u16 | u32 | u64 | f32 | f64
deriving DecidableEq, Repr

/-- Rust `Primitive::size`: size of the primitive in bytes. -/
def Primitive.size : Primitive → Nat
  | .bool => 1
  | .i8 => 1
  | .i16 => 2
  | .i32 => 4
  | .i64 => 8
  | .u8 => 1
  | .u16 => 2
  | .u32 => 4
  | .u64 => 8
  | .f32 => 4
  | .f64 => 8

mutual
/-- A resolved type (`Type` in dtypes.rs). -/
inductive SBType : Type where
  | primitive (p : Primitive)
  | sequenceRef (name : String)
  | enumRef (name : String) (size : Nat)
  | array (t : SBType)
  | str
  | oneOf (fields : List SBField)

/-- A resolved field (`Field` in dtypes.rs): name, type, and index.  For
sequence fields the index is the byte offset from the start of the sequence;
for oneof fields it is the index of the field in the oneof. -/
inductive SBField : Type where
  | mk (name : String) (ty : SBType) (index : Nat)
end

/-- Field name accessor. -/
def SBField.name : SBField → String
  | .mk n _ _ => n

/-- Field type accessor. -/
def SBField.ty : SBField → SBType
  | .mk _ t _ => t

/-- Field index accessor. -/
def SBField.index : SBField → Nat
  | .mk _ _ i => i

/-- Rust `Type::size`: fixed size of the type in bytes. -/
def SBType.size : SBType → Nat
  | .primitive p => p.size
  | .sequenceRef _ => 2
  | .enumRef _ s => s
  | .array _ => 4
  | .str => 2
  | .oneOf _ => 3

/-- A variant of an enum (`EnumVariant` in dtypes.rs). -/
structure EnumVariant where
  name : String
  value : Nat
deriving DecidableEq, Repr

/-- An enum (`Enum` in dtypes.rs). -/
structure Enum where
  name : String
  size : Nat
  variants : List EnumVariant
deriving DecidableEq, Repr

/-- A sequence of fields (`Sequence` in dtypes.rs). -/
structure Sequence where
  name : String
  fields : List SBField

/-- A fully parsed SimpleBuffers schema (`SBSchema` in dtypes.rs). -/
structure SBSchema where
  sequences : List Sequence
  enums : List Enum

/-- The total static size of a sequence, as computed by the C++ generator
(`annotate.rs`, `annotate_sequence`): the sum of the fixed sizes of its
fields. -/
def seqStaticSize (s : Sequence) : Nat :=
  s.fields.foldl (fun acc f => acc + f.ty.size) 0

/-! ## Syntax tree (`ast/mod.rs`, shape as consumed by `compiler/parse.rs`) -/

/-- A syntax tree node (`SyntaxTree` in ast/mod.rs).  The token tag carried by
`TaggedSyntaxTree` is location metadata used only in error payloads, so it is
omitted here.  Enum entry values are carried as raw text and parsed by the
semantic compiler. -/
inductive AstNode where
  | file (children : List AstNode)
  | seqDecl (name : String) (fields : List AstNode)
  | fieldDecl (name : String) (ty : AstNode)
  | enumDecl (name : String) (entries : List AstNode)
  | enumEntry (name : String) (value : String)
  | typeRef (name : String)
  | arrayType (t : AstNode)
  | oneOfType (fields : List AstNode)

mutual
/-- Depth-first (preorder) traversal of a syntax tree, as produced by
`DepthFirstSyntaxTreeInterator` in `ast/traverse.rs`: each node is visited
before its children, children in declaration order. -/
def AstNode.dfs : AstNode → List AstNode
  | .file cs => .file cs :: AstNode.dfsList cs
  | .seqDecl n cs => .seqDecl n cs :: AstNode.dfsList cs
  | .fieldDecl n c => .fieldDecl n c :: AstNode.dfs c
  | .enumDecl n cs => .enumDecl n cs :: AstNode.dfsList cs
  | .enumEntry n v => [.enumEntry n v]
  | .typeRef n => [.typeRef n]
  | .arrayType c => .arrayType c :: AstNode.dfs c
  | .oneOfType cs => .oneOfType cs :: AstNode.dfsList cs

/-- Depth-first traversal of a list of sibling nodes, in order. -/
def AstNode.dfsList : List AstNode → List AstNode
  | [] => []
  | c :: cs => AstNode.dfs c ++ AstNode.dfsList cs
end

/-! ## Semantic compiler (`compiler/parse.rs`) -/

/-- Constant `PRIMITIVES`: array of primitive names and internal representations. -/
def PRIMITIVES : List (String × Primitive) :=
  [("bool", .bool), ("i8", .i8), ("i16", .i16), ("i32", .i32), ("i64", .i64),
   ("u8", .u8), ("u16", .u16), ("u32", .u32), ("u64", .u64),
   ("f32", .f32), ("f64", .f64)]

/-- Rust `StructType`: whether a structure is a sequence or an enum. -/
inductive StructType where
  | sequence
  | enum
deriving DecidableEq, Repr

/-- The symbol table built by the name-collection pass.  The Rust code uses a
`HashMap<String, StructType>`; keys are inserted only after a
`contains_key` check fails, so they are unique and an association list with
first-match lookup has identical observable behaviour. -/
def StructMap := List (String × StructType)

/-- Rust `verify_struct_name`: a struct name must not be reserved (a primitive
name) and must be unique. -/
def verify_struct_name (name : String) (m : StructMap) : Except String Unit :=
  if (PRIMITIVES.map Prod.fst).contains name then
    .error ("Name \"" ++ name ++ "\" is reserved")
  else if (List.lookup name m).isSome then
    .error ("A structure with the name \"" ++ name ++ "\" already exists")
  else
    .ok ()

/-- The name-collection loop at the start of `parse_ast`: fold over the
depth-first node list, verifying and recording every sequence or enum name. -/
def collectNames : List AstNode → StructMap → Except String StructMap
  | [], m => .ok m
  | n :: rest, m =>
    match n with
    | .seqDecl name _ =>
      match verify_struct_name name m with
      | .error e => .error e
      | .ok _ => collectNames rest ((name, .sequence) :: m)
    | .enumDecl name _ =>
      match verify_struct_name name m with
      | .error e => .error e
      | .ok _ => collectNames rest ((name, .enum) :: m)
    | _ => collectNames rest m

/-- Rust `str::parse::<u64>`: optional leading `+`, one or more ASCII digits,
value at most `u64::MAX`; anything else (including `_` or `.`) fails. -/
def parseU64 (s : String) : Option Nat :=
  let ds := match s.data with
    | '+' :: r => r
    | r => r
  if ds.isEmpty then none
  else if ds.all (fun c => c.isDigit) then
    let v := ds.foldl (fun a c => a * 10 + (c.toNat - 48)) 0
    if v ≤ 18446744073709551615 then some v else none
  else none

/-- The ordered candidate widths and their unsigned maxima used by
`parse_enum`: `[(1, u8::MAX), (2, u16::MAX), (4, u32::MAX), (8, u64::MAX)]`. -/
def widthCandidates : List (Nat × Nat) :=
  [(1, 255), (2, 65535), (4, 4294967295), (8, 18446744073709551615)]

/-- The width-update loop of `parse_enum`: skip candidates smaller than the
current size, and take the first remaining candidate whose maximum
accommodates the new value. -/
def updateEnumSize (cur v : Nat) : Nat :=
  match widthCandidates.find? (fun p => decide (cur ≤ p.1) && decide (v ≤ p.2)) with
  | some p => p.1
  | none => cur

/-- The duplicate check inside `parse_enum`'s entry loop: scan previous
variants in order, reporting a duplicate name or a duplicate value for the
first variant that collides. -/
def findEnumDup (ename n : String) (pv : Nat) : List EnumVariant → Option String
  | [] => none
  | w :: ws =>
    if w.name = n then
      some ("Enum entry \"" ++ n ++ "\" already exists in enum \"" ++ ename ++ "\"")
    else if w.value = pv then
      some ("Enum entries \"" ++ ename ++ ":" ++ w.name ++ "\" and \"" ++ ename ++ ":" ++ n
        ++ "\" have the same value")
    else
      findEnumDup ename n pv ws

/-- The entry loop of `parse_enum`, carrying the accepted variants and the
running enum size. -/
def parseEnumEntries (ename : String) :
    List AstNode → List EnumVariant → Nat → Except String (List EnumVariant × Nat)
  | [], vars, size => .ok (vars, size)
  | e :: rest, vars, size =>
    match e with
    | .enumEntry n v =>
      match parseU64 v with
      | none =>
        .error ("Value \"" ++ v ++ "\" for enum entry \"" ++ ename ++ ":" ++ n
          ++ "\" is not a valid integer")
      | some pv =>
        match findEnumDup ename n pv vars with
        | some e => .error e
        | none => parseEnumEntries ename rest (vars ++ [⟨n, pv⟩]) (updateEnumSize size pv)
    | _ => .error "unreachable: entry is not an entry"

/-- Rust `parse_enum`: parse an enum declaration's entries, starting from size 1. -/
def parse_enum (name : String) (entries : List AstNode) : Except String Enum :=
  match parseEnumEntries name entries [] 1 with
  | .error e => .error e
  | .ok (vars, size) => .ok ⟨name, size, vars⟩

mutual
/-- Rust `parse_type`: resolve a type node.  A bare identifier is checked, in
order, against the literal `string` type, the symbol table, and the primitive
table; arrays recurse on the element type; oneofs resolve their fields with
ordinal indices. -/
def parse_type (m : StructMap) : AstNode → Except String SBType
  | .typeRef name =>
    if name = "string" then .ok .str
    else
      match List.lookup name m with
      | some .sequence => .ok (.sequenceRef name)
      | some .enum => .ok (.enumRef name 0)
      | none =>
        match PRIMITIVES.find? (fun x => x.1 = name) with
        | some found => .ok (.primitive found.2)
        | none => .error ("Type \"" ++ name ++ "\" is not a valid type")
  | .arrayType t =>
    match parse_type m t with
    | .error e => .error e
    | .ok inner => .ok (.array inner)
  | .oneOfType fields =>
    match parseOneOfFields m fields 0 [] with
    | .error e => .error e
    | .ok fs => .ok (.oneOf fs)
  | _ => .error "unreachable: type is not a type"

/-- The field loop inside `parse_type`'s oneof case: `i` is the enumeration
index, `names` the names accepted so far. -/
def parseOneOfFields (m : StructMap) :
    List AstNode → Nat → List String → Except String (List SBField)
  | [], _, _ => .ok []
  | f :: rest, i, names =>
    match f with
    | .fieldDecl fname ftype =>
      if names.contains fname then
        .error ("Field \"" ++ fname ++ "\" already exists in oneof")
      else
        match parse_type m ftype with
        | .error e => .error e
        | .ok ft =>
          match parseOneOfFields m rest (i + 1) (names ++ [fname]) with
          | .error e => .error e
          | .ok tail => .ok (⟨fname, ft, i⟩ :: tail)
    | _ => .error "unreachable: field is not a field"
end

/-- The field loop of `parse_sequence`: `names` is the list of accepted field
names, `off` the running byte offset. -/
def parseSeqFields (sname : String) (m : StructMap) :
    List AstNode → List String → Nat → Except String (List SBField)
  | [], _, _ => .ok []
  | f :: rest, names, off =>
    match f with
    | .fieldDecl fname ftype =>
      if names.contains fname then
        .error ("Field \"" ++ fname ++ "\" already exists in sequence \"" ++ sname ++ "\"")
      else
        match parse_type m ftype with
        | .error e => .error e
        | .ok ft =>
          match parseSeqFields sname m rest (names ++ [fname]) (off + ft.size) with
          | .error e => .error e
          | .ok tail => .ok (⟨fname, ft, off⟩ :: tail)
    | _ => .error "unreachable: field is not a field"

/-- Rust `parse_sequence`: parse a sequence declaration's fields, accumulating
byte offsets from 0. -/
def parse_sequence (name : String) (fields : List AstNode) (m : StructMap) :
    Except String Sequence :=
  match parseSeqFields name m fields [] 0 with
  | .error e => .error e
  | .ok fs => .ok ⟨name, fs⟩

mutual
/-- Rust `process_type` (inner helper of `inject_enum_size_into`): inject the enum
size into a single type, returning the new type and the size the field grew
by. -/
def process_type (ename : String) (esize : Nat) : SBType → SBType × Nat
  | .enumRef foundName foundSize =>
    if foundName = ename then (.enumRef foundName esize, esize)
    else (.enumRef foundName foundSize, 0)
  | .array b =>
    let r := process_type ename esize b
    (.array r.1, 0)
  | .oneOf subfields => (.oneOf (injectGo ename esize 0 subfields), 0)
  | t => (t, 0)

/-- The field loop of `inject_enum_size_into`, carrying the running
`adjust_by` accumulator: each field's index is shifted by the accumulated
adjustment, then the adjustment grows by the size its type gained. -/
def injectGo (ename : String) (esize : Nat) (adjust : Nat) : List SBField → List SBField
  | [] => []
  | .mk n ty idx :: rest =>
    let r := process_type ename esize ty
    .mk n r.1 (idx + adjust) :: injectGo ename esize (adjust + r.2) rest
end

/-- Rust `inject_enum_size_into`: find enum fields matching the given name and
inject the given size, shifting later fields' indices. -/
def inject_enum_size_into (ename : String) (esize : Nat) (fields : List SBField) :
    List SBField :=
  injectGo ename esize 0 fields

/-- The top-level loop of `parse_ast`: parse each file child into the
sequence or enum list, in order. -/
def parseTopLevel (m : StructMap) : List AstNode → Except String (List Sequence × List Enum)
  | [] => .ok ([], [])
  | t :: rest =>
    match t with
    | .seqDecl name fields =>
      match parse_sequence name fields m with
      | .error e => .error e
      | .ok s =>
        match parseTopLevel m rest with
        | .error e => .error e
        | .ok (ss, es) => .ok (s :: ss, es)
    | .enumDecl name entries =>
      match parse_enum name entries with
      | .error e => .error e
      | .ok en =>
        match parseTopLevel m rest with
        | .error e => .error e
        | .ok (ss, es) => .ok (ss, en :: es)
    | _ => .error "unreachable: top level node is not a sequence or enum"

/-- The enum-size injection loop at the end of `parse_ast`: for every enum,
rewrite every sequence's fields. -/
def backfillAll (enums : List Enum) (seqs : List Sequence) : List Sequence :=
  enums.foldl
    (fun ss e => ss.map (fun s => { s with fields := inject_enum_size_into e.name e.size s.fields }))
    seqs

/-- Rust `parse_ast`: build the symbol table over the whole tree depth-first, parse
every top-level declaration, then inject enum sizes. -/
def parse_ast (root : AstNode) : Except String SBSchema :=
  match collectNames (AstNode.dfs root) [] with
  | .error e => .error e
  | .ok m =>
    match root with
    | .file children =>
      match parseTopLevel m children with
      | .error e => .error e
      | .ok (ss, es) => .ok ⟨backfillAll es ss, es⟩
    | _ => .error "unreachable: root node is not a file"

/-! ## Lexer (`src/tokenizer/mod.rs`)

The `SPEC` table is an ordered list of anchored regex rules; the first rule
that matches the unconsumed input wins.  Each rule is embedded as a function
from the remaining character list to an optional match length.  Source
location bookkeeping (line/column counters and the 3-line rolling window) is
display-only metadata and is omitted. -/

/-- A token type (`TokenType` in tokenizer/mod.rs), carrying raw text for
numbers and identifiers. -/
inductive TokType where
  | sequenceKw
  | oneofKw
  | enumKw
  | openBrace
  | closeBrace
  | openBracket
  | closeBracket
  | colon
  | semicolon
  | equals
  | number (val : String)
  | ident (val : String)
deriving DecidableEq, Repr

/-- Whitespace characters matched by the regex class `\s` (ASCII part). -/
def isWsChar (c : Char) : Bool :=
  c = ' ' || c = '\t' || c = '\n' || c = '\r' || c = Char.ofNat 11 || c = Char.ofNat 12

/-- Rule `^\s+` (ignore whitespace): greedy run of whitespace characters. -/
def matchWs (cs : List Char) : Option Nat :=
  if (cs.takeWhile isWsChar).length = 0 then none
  else some (cs.takeWhile isWsChar).length

/-- Length of a comment body up to and including its first `\r` or `\n`
terminator, matching the lazy regex `.*?(\r|\n|\r\n)` (the alternation stops
at the first carriage return or newline; without one there is no match). -/
def commentEnd : List Char → Option Nat
  | [] => none
  | c :: cs =>
    if c = '\r' || c = '\n' then some 1
    else (commentEnd cs).map (· + 1)

/-- Rule `^//.*?(\r|\n|\r\n)` (ignore comments): requires the leading `//`
and a `\r` or `\n` terminator. -/
def matchComment : List Char → Option Nat
  | '/' :: '/' :: rest => (commentEnd rest).map (· + 2)
  | _ => none

/-- Literal keyword/punctuation rule: matches when the spelling is a prefix
of the input. -/
def matchLit (kw : List Char) (cs : List Char) : Option Nat :=
  if List.isPrefixOf kw cs then some kw.length else none

/-- A character matched by `[0-9_]`. -/
def isNumChar (c : Char) : Bool := c.isDigit || c = '_'

/-- Rule `^[0-9_]+(?:\.[0-9_]+)?`: a greedy digits/underscore run with an
optional fractional part. -/
def matchNumber (cs : List Char) : Option Nat :=
  if (cs.takeWhile isNumChar).length = 0 then none
  else
    match cs.drop (cs.takeWhile isNumChar).length with
    | '.' :: rest =>
      if (rest.takeWhile isNumChar).length = 0 then
        some (cs.takeWhile isNumChar).length
      else
        some ((cs.takeWhile isNumChar).length + 1 + (rest.takeWhile isNumChar).length)
    | _ => some (cs.takeWhile isNumChar).length

/-- A character matched by `[a-zA-Z_]`. -/
def isIdentStart (c : Char) : Bool := c.isAlpha || c = '_'

/-- A character matched by `[a-zA-Z0-9_]`. -/
def isIdentChar (c : Char) : Bool := c.isAlpha || c.isDigit || c = '_'

/-- Rule `^[a-zA-Z_][a-zA-Z0-9_]*`: an identifier. -/
def matchIdent (cs : List Char) : Option Nat :=
  match cs with
  | c :: rest =>
    if isIdentStart c then some (1 + (rest.takeWhile isIdentChar).length)
    else none
  | [] => none

/-- The ordered `SPEC` scan in `Tokenizer::advance`: try each rule in order
and return the produced token (`none` for the skip rules) together with the
number of characters consumed. -/
def nextTokenMatch (cs : List Char) : Option (Option TokType × Nat) :=
  match matchWs cs with
  | some n => some (none, n)
  | none =>
  match matchComment cs with
  | some n => some (none, n)
  | none =>
  match matchLit "sequence".data cs with
  | some n => some (some .sequenceKw, n)
  | none =>
  match matchLit "oneof".data cs with
  | some n => some (some .oneofKw, n)
  | none =>
  match matchLit "enum".data cs with
  | some n => some (some .enumKw, n)
  | none =>
  match matchLit "\x7b".data cs with
  | some n => some (some .openBrace, n)
  | none =>
  match matchLit "\x7d".data cs with
  | some n => some (some .closeBrace, n)
  | none =>
  match matchLit "[".data cs with
  | some n => some (some .openBracket, n)
  | none =>
  match matchLit "]".data cs with
  | some n => some (some .closeBracket, n)
  | none =>
  match matchLit ":".data cs with
  | some n => some (some .colon, n)
  | none =>
  match matchLit ";".data cs with
  | some n => some (some .semicolon, n)
  | none =>
  match matchLit "=".data cs with
  | some n => some (some .equals, n)
  | none =>
  match matchNumber cs with
  | some n => some (some (.number ⟨cs.take n⟩), n)
  | none =>
  match matchIdent cs with
  | some n => some (some (.ident ⟨cs.take n⟩), n)
  | none => none

theorem takeWhile_len_le {α : Type} (p : α → Bool) (l : List α) :
    (l.takeWhile p).length ≤ l.length := by
  induction l with
  | nil => simp
  | cons a l ih =>
    by_cases h : p a
    · simp [List.takeWhile, h]
      omega
    · simp [List.takeWhile, h]

theorem matchWs_pos {cs : List Char} {n : Nat} (h : matchWs cs = some n) :
    0 < n ∧ n ≤ cs.length := by
  unfold matchWs at h
  split at h
  · exact absurd h (by simp)
  · next h0 =>
    cases h
    exact ⟨by omega, takeWhile_len_le _ _⟩

theorem commentEnd_le {cs : List Char} {n : Nat} (h : commentEnd cs = some n) :
    n ≤ cs.length := by
  induction cs generalizing n with
  | nil => simp [commentEnd] at h
  | cons c cs ih =>
    unfold commentEnd at h
    split at h
    · cases h; simp
    · rcases Option.map_eq_some'.mp h with ⟨k, hk, rfl⟩
      have := ih hk
      simp
      omega

theorem matchComment_pos {cs : List Char} {n : Nat} (h : matchComment cs = some n) :
    0 < n ∧ n ≤ cs.length := by
  unfold matchComment at h
  split at h
  · rcases Option.map_eq_some'.mp h with ⟨k, hk, rfl⟩
    have := commentEnd_le hk
    simp
    omega
  · exact absurd h (by simp)

theorem matchLit_pos {kw cs : List Char} {n : Nat} (hkw : kw ≠ [])
    (h : matchLit kw cs = some n) : 0 < n ∧ n ≤ cs.length := by
  unfold matchLit at h
  split at h
  · next hp =>
    cases h
    have hpre : kw <+: cs := List.isPrefixOf_iff_prefix.mp hp
    exact ⟨List.length_pos.mpr hkw, hpre.length_le⟩
  · exact absurd h (by simp)

theorem matchNumber_pos {cs : List Char} {n : Nat} (h : matchNumber cs = some n) :
    0 < n ∧ n ≤ cs.length := by
  unfold matchNumber at h
  have hle1 : (cs.takeWhile isNumChar).length ≤ cs.length := takeWhile_len_le _ _
  split at h
  · exact absurd h (by simp)
  · next h1 =>
    split at h
    · next rest hdrop =>
      have hdlen : (cs.drop (cs.takeWhile isNumChar).length).length =
          cs.length - (cs.takeWhile isNumChar).length := by simp
      rw [hdrop] at hdlen
      have hle2 : (rest.takeWhile isNumChar).length ≤ rest.length := takeWhile_len_le _ _
      simp at hdlen
      split at h <;> cases h <;> exact ⟨by omega, by omega⟩
    · cases h
      exact ⟨by omega, hle1⟩

theorem matchIdent_pos {cs : List Char} {n : Nat} (h : matchIdent cs = some n) :
    0 < n ∧ n ≤ cs.length := by
  unfold matchIdent at h
  split at h
  · next c rest =>
    split at h
    · cases h
      have := takeWhile_len_le isIdentChar rest
      exact ⟨by omega, by simp; omega⟩
    · exact absurd h (by simp)
  · exact absurd h (by simp)

/-- Any successful rule consumes at least one character (and no more than
remain). -/
theorem nextTokenMatch_pos {cs : List Char} {t : Option TokType} {n : Nat}
    (h : nextTokenMatch cs = some (t, n)) : 0 < n ∧ n ≤ cs.length := by
  unfold nextTokenMatch at h
  split at h
  · next hm => cases h; exact matchWs_pos hm
  · split at h
    · next hm => cases h; exact matchComment_pos hm
    · split at h
      · next hm => cases h; exact matchLit_pos (by simp) hm
      · split at h
        · next hm => cases h; exact matchLit_pos (by simp) hm
        · split at h
          · next hm => cases h; exact matchLit_pos (by simp) hm
          · split at h
            · next hm => cases h; exact matchLit_pos (by simp) hm
            · split at h
              · next hm => cases h; exact matchLit_pos (by simp) hm
              · split at h
                · next hm => cases h; exact matchLit_pos (by simp) hm
                · split at h
                  · next hm => cases h; exact matchLit_pos (by simp) hm
                  · split at h
                    · next hm => cases h; exact matchLit_pos (by simp) hm
                    · split at h
                      · next hm => cases h; exact matchLit_pos (by simp) hm
                      · split at h
                        · next hm => cases h; exact matchLit_pos (by simp) hm
                        · split at h
                          · next hm => cases h; exact matchNumber_pos hm
                          · split at h
                            · next hm => cases h; exact matchIdent_pos hm
                            · exact absurd h (by simp)

/-- Rust `Tokenizer::advance`: the state is the unconsumed input together
with the pending `next_token`.  The guard at the top returns immediately when
there is no pending token and this is not the first call; at end of input the
pending token is cleared; otherwise the `SPEC` rules are scanned, a produced
token replaces the pending one, a skip rule recurses, and a failed scan is a
`TokenizerError` (modelled as `Except.error ()`). -/
def advance (rest : List Char) (nextTok : Option TokType) (first : Bool) :
    Except Unit (List Char × Option TokType) :=
  if nextTok.isNone && !first then .ok (rest, nextTok)
  else if _hempty : rest.length = 0 then .ok (rest, none)
  else
    match _hm : nextTokenMatch rest with
    | none => .error ()
    | some (some tt, n) => .ok (rest.drop n, some tt)
    | some (none, n) => advance (rest.drop n) nextTok false
termination_by rest.length
decreasing_by
  have := nextTokenMatch_pos _hm
  simp
  omega

theorem advance_measure_aux :
    ∀ (L : Nat) (rest : List Char), rest.length ≤ L →
      ∀ (t : TokType) (rest' : List Char) (nt' : Option TokType),
        advance rest (some t) false = .ok (rest', nt') →
        rest'.length + (if nt'.isSome then 1 else 0) < rest.length + 1 := by
  intro L
  induction L with
  | zero =>
    rintro (_ | ⟨c, cs⟩) hle t rest' nt' h
    · unfold advance at h
      simp at h
      obtain ⟨rfl, rfl⟩ := h
      simp
    · simp at hle
  | succ L ih =>
    rintro (_ | ⟨c, cs⟩) hle t rest' nt' h
    · unfold advance at h
      simp at h
      obtain ⟨rfl, rfl⟩ := h
      simp
    · unfold advance at h
      simp at h
      cases hm : nextTokenMatch (c :: cs) with
      | none =>
        rw [hm] at h
        simp at h
      | some v =>
        obtain ⟨tk, n⟩ := v
        have hpos := nextTokenMatch_pos hm
        rw [hm] at h
        cases tk with
        | some tt =>
          simp at h
          obtain ⟨rfl, rfl⟩ := h
          simp at hpos ⊢
          omega
        | none =>
          simp at h
          have hdl : ((c :: cs).drop n).length ≤ L := by
            simp at hpos hle ⊢
            omega
          have := ih ((c :: cs).drop n) hdl t rest' nt' h
          simp at this hpos ⊢
          omega

/-- One `advance` step from a state with a pending token strictly decreases
the measure `remaining length + (1 if a token is pending)`. -/
theorem advance_measure {rest : List Char} {t : TokType}
    {rest' : List Char} {nt' : Option TokType}
    (h : advance rest (some t) false = .ok (rest', nt')) :
    rest'.length + (if nt'.isSome then 1 else 0) < rest.length + 1 :=
  advance_measure_aux rest.length rest le_rfl t rest' nt' h

/-- The `pop` loop driven through the `Iterator` instance: emit the pending
token, advance, and continue until the pending token is `None`; a
`TokenizerError` from `advance` aborts the stream. -/
def tokensFrom (rest : List Char) (nextTok : Option TokType) :
    Except Unit (List TokType) :=
  match nextTok with
  | none => .ok []
  | some t =>
    match _h : advance rest (some t) false with
    | .error _ => .error ()
    | .ok (rest', nt') =>
      match tokensFrom rest' nt' with
      | .error _ => .error ()
      | .ok ts => .ok (t :: ts)
termination_by rest.length + (if nextTok.isSome then 1 else 0)
decreasing_by
  have := advance_measure _h
  simp
  omega

/-- Rust `Tokenizer::new` followed by iterating `pop` to exhaustion: the
token stream of a source text. -/
def tokenize (src : List Char) : Except Unit (List TokType) :=
  match advance src none true with
  | .error _ => .error ()
  | .ok (rest, nt) => tokensFrom rest nt

/-! ## Reserved-identifier check (`reserved_identifiers.rs`) -/

/-- Target kind of a reserve-check error (`ReserveCheckErrorTarget`). -/
inductive RTarget where
  | sequence
  | enum
  | enumVar
  | field
deriving DecidableEq, Repr

/-- Error of the reserved-identifier check (`ReserveCheckError`): target
kind, the context name stack (innermost parent first, as pushed by
`bubble`), the offending name, and the matched reserved word. -/
structure ReserveCheckError where
  target : RTarget
  nameStack : List String
  name : String
  matched : String
deriving DecidableEq, Repr

/-- Rust `ReserveCheckError::bubble`: push a parent name onto the stack. -/
def bubble (e : ReserveCheckError) (n : String) : ReserveCheckError :=
  { e with nameStack := e.nameStack ++ [n] }

/-- Split a string into words at `_`, `-` and spaces and before each
uppercase letter, lowercasing everything.  `acc` is the current word,
reversed. -/
def snakeWords (acc : List Char) : List Char → List (List Char)
  | [] => if acc.isEmpty then [] else [acc.reverse]
  | c :: cs =>
    if c = '_' || c = '-' || c = ' ' then
      if acc.isEmpty then snakeWords [] cs else acc.reverse :: snakeWords [] cs
    else if c.isUpper then
      if acc.isEmpty then snakeWords [c.toLower] cs
      else acc.reverse :: snakeWords [c.toLower] cs
    else snakeWords (c :: acc) cs

/-- Modelled from the spec: normalization of a name "to a canonical
word-separated (snake_case) form".  The source delegates to the external
`convert_case` crate (`to_case(Case::Snake)`), which is not part of this
repository; this model splits words at separators and lowercase→uppercase
boundaries and joins them with underscores. -/
def toSnakeCase (s : String) : String :=
  ⟨List.intercalate ['_'] (snakeWords [] s.data)⟩

/-- Rust `find_match` (inner helper of `check_reserved`): the first reserved
word that equals the name after both are normalized. -/
def find_match (name : String) (reserved : List String) : Option String :=
  reserved.find? (fun r => toSnakeCase name == toSnakeCase r)

mutual
/-- Rust `check_field`: check a field's own name, then recurse into the
fields of a directly-nested oneof type (and only there), bubbling the
field's name onto the error stack. -/
def check_field (reserved : List String) : SBField → Except ReserveCheckError Unit
  | .mk n ty _ =>
    match find_match n reserved with
    | some m => .error ⟨.field, [], n, m⟩
    | none =>
      match ty with
      | .oneOf subs => checkFieldList reserved n subs
      | _ => .ok ()

/-- The subfield loop of `check_field`'s oneof case. -/
def checkFieldList (reserved : List String) (parent : String) :
    List SBField → Except ReserveCheckError Unit
  | [] => .ok ()
  | f :: fs =>
    match check_field reserved f with
    | .error e => .error (bubble e parent)
    | .ok _ => checkFieldList reserved parent fs
end

/-- The per-variant loop of `check_reserved`'s enum pass. -/
def checkVariants (reserved : List String) (ename : String) :
    List EnumVariant → Except ReserveCheckError Unit
  | [] => .ok ()
  | v :: vs =>
    match find_match v.name reserved with
    | some m => .error (bubble ⟨.enumVar, [], v.name, m⟩ ename)
    | none => checkVariants reserved ename vs

/-- The enum loop of `check_reserved`. -/
def checkEnums (reserved : List String) : List Enum → Except ReserveCheckError Unit
  | [] => .ok ()
  | e :: es =>
    match find_match e.name reserved with
    | some m => .error ⟨.enum, [], e.name, m⟩
    | none =>
      match checkVariants reserved e.name e.variants with
      | .error er => .error er
      | .ok _ => checkEnums reserved es

/-- The sequence loop of `check_reserved`: the sequence name, then its fields
with the sequence name bubbled onto field errors. -/
def checkSeqs (reserved : List String) : List Sequence → Except ReserveCheckError Unit
  | [] => .ok ()
  | s :: ss =>
    match find_match s.name reserved with
    | some m => .error ⟨.sequence, [], s.name, m⟩
    | none =>
      match checkFieldList reserved s.name s.fields with
      | .error er => .error er
      | .ok _ => checkSeqs reserved ss

/-- Rust `check_reserved`: all enums (names then variants) are checked
before all sequences (names then fields). -/
def check_reserved (schema : SBSchema) (reserved : List String) :
    Except ReserveCheckError Unit :=
  match checkEnums reserved schema.enums with
  | .error e => .error e
  | .ok _ => checkSeqs reserved schema.sequences

/-! ## Concrete schema inputs used by the claims -/

/-- Syntax tree of `enum Color { Red = 0; Green = 1; Blue = 2; }
sequence Point { x: i32; y: i32; color: Color; }`. -/
def c1ast : AstNode :=
  .file [
    .enumDecl "Color" [.enumEntry "Red" "0", .enumEntry "Green" "1", .enumEntry "Blue" "2"],
    .seqDecl "Point" [.fieldDecl "x" (.typeRef "i32"), .fieldDecl "y" (.typeRef "i32"),
      .fieldDecl "color" (.typeRef "Color")]]

/-- The resolved schema of `c1ast`. -/
def c1schema : SBSchema :=
  ⟨[⟨"Point", [.mk "x" (.primitive .i32) 0, .mk "y" (.primitive .i32) 4,
      .mk "color" (.enumRef "Color" 1) 8]⟩],
   [⟨"Color", 1, [⟨"Red", 0⟩, ⟨"Green", 1⟩, ⟨"Blue", 2⟩]⟩]⟩

/-- Syntax tree of `enum E { A = 0; } sequence S { o: oneof { a: E; b: u8; }; }`. -/
def c4ast : AstNode :=
  .file [
    .enumDecl "E" [.enumEntry "A" "0"],
    .seqDecl "S" [.fieldDecl "o" (.oneOfType
      [.fieldDecl "a" (.typeRef "E"), .fieldDecl "b" (.typeRef "u8")])]]

/-- The oneof subfields of the single field of the single sequence of a
schema (empty list for any other shape). -/
def firstOneOfSubfields (r : SBSchema) : List SBField :=
  match r.sequences with
  | [sq] =>
    match sq.fields with
    | [f] =>
      match f.ty with
      | .oneOf subs => subs
      | _ => []
    | _ => []
  | _ => []

/-- Syntax tree of `sequence string { x: u8; } sequence T { f: string; }`:
a user sequence named `string` alongside a field of type `string`. -/
def c9ast : AstNode :=
  .file [
    .seqDecl "string" [.fieldDecl "x" (.typeRef "u8")],
    .seqDecl "T" [.fieldDecl "f" (.typeRef "string")]]

/-- The resolved schema of `c9ast`: field `f` of `T` is the built-in string
type, not a reference to the user sequence named `string`. -/
def c9schema : SBSchema :=
  ⟨[⟨"string", [.mk "x" (.primitive .u8) 0]⟩, ⟨"T", [.mk "f" .str 0]⟩], []⟩

/-! ## Claim theorems -/

/-- C1: compiling `enum Color { Red = 0; Green = 1; Blue = 2; }
sequence Point { x: i32; y: i32; color: Color; }` succeeds, resolving enum
`Color` to size 1 with variants Red=0, Green=1, Blue=2 in declaration order,
and sequence `Point` to fields `x` (i32) at offset 0, `y` (i32) at offset 4,
and `color` (enum `Color`, resolved size 1) at offset 8; the total static
size (sum of the field sizes) is 9 bytes. -/
theorem c1_end_to_end :
    parse_ast c1ast = .ok c1schema ∧ c1schema.sequences.map seqStaticSize = [9] :=
  ⟨rfl, rfl⟩

/-- C4 evaluation: on `enum E { A = 0; } sequence S { o: oneof { a: E; b: u8; }; }`
the compiler succeeds, but after the enum-size backfill the oneof's second
field `b` (ordinal position 1) carries recorded index 2: the backfill pass
shifts oneof field indices by the injected enum size as if they were byte
offsets, so the recorded indices `[0, 2]` are not the ordinal positions
`[0, 1]`. -/
theorem c4_backfill_shifts_oneof_index :
    (parse_ast c4ast).map (fun r => (firstOneOfSubfields r).map SBField.index)
      = .ok [0, 2] ∧
    (parse_ast c4ast).map (fun r => (firstOneOfSubfields r).map SBField.index)
      ≠ .ok [0, 1] := by
  have h1 : (parse_ast c4ast).map (fun r => (firstOneOfSubfields r).map SBField.index)
      = .ok [0, 2] := rfl
  refine ⟨h1, ?_⟩
  rw [h1]
  simp

/-- Whether an `Except` computation failed. -/
def isErrB {ε α : Type} : Except ε α → Bool
  | .error _ => true
  | .ok _ => false

/-- C9: the reserved-name set checked at name collection is exactly the 11
primitive type names and does not include `string`; a sequence may be
declared with the name `string`, and a field whose type identifier is
`string` still resolves to the built-in string type (for every symbol
table), because the literal string check precedes the symbol-table lookup. -/
theorem c9_string_resolution :
    (∀ name : String, isErrB (verify_struct_name name ([] : StructMap)) =
      (["bool", "i8", "i16", "i32", "i64", "u8", "u16", "u32", "u64",
        "f32", "f64"].contains name)) ∧
    ("string" ∉ PRIMITIVES.map Prod.fst) ∧
    (∀ m : StructMap, parse_type m (.typeRef "string") = .ok .str) ∧
    parse_ast c9ast = .ok c9schema := by
  refine ⟨?_, by decide, fun m => rfl, rfl⟩
  intro name
  have hl : PRIMITIVES.map Prod.fst =
      ["bool", "i8", "i16", "i32", "i64", "u8", "u16", "u32", "u64", "f32", "f64"] := rfl
  rw [← hl]
  unfold verify_struct_name
  cases h : (PRIMITIVES.map Prod.fst).contains name with
  | true => simp [h, isErrB]
  | false => simp [h, isErrB, List.lookup]

/-! ## Lexer step lemmas -/

theorem advance_guard {rest : List Char} {nt : Option TokType} {first : Bool}
    (hg : (nt.isNone && !first) = true) : advance rest nt first = .ok (rest, nt) := by
  unfold advance
  rw [if_pos hg]

theorem advance_eof {rest : List Char} {nt : Option TokType} {first : Bool}
    (hg : (nt.isNone && !first) = false) (h0 : rest.length = 0) :
    advance rest nt first = .ok (rest, none) := by
  unfold advance
  rw [if_neg (by simp [hg]), dif_pos h0]

theorem advance_produce {rest : List Char} {nt : Option TokType} {first : Bool}
    {tt : TokType} {n : Nat} (hg : (nt.isNone && !first) = false)
    (hne : ¬rest.length = 0) (hm : nextTokenMatch rest = some (some tt, n)) :
    advance rest nt first = .ok (rest.drop n, some tt) := by
  unfold advance
  rw [if_neg (by simp [hg]), dif_neg hne, hm]

theorem advance_skip {rest : List Char} {nt : Option TokType} {first : Bool}
    {n : Nat} (hg : (nt.isNone && !first) = false)
    (hne : ¬rest.length = 0) (hm : nextTokenMatch rest = some (none, n)) :
    advance rest nt first = advance (rest.drop n) nt false := by
  conv_lhs => rw [advance]
  rw [if_neg (by simp [hg]), dif_neg hne, hm]

theorem advance_fail {rest : List Char} {nt : Option TokType} {first : Bool}
    (hg : (nt.isNone && !first) = false) (hne : ¬rest.length = 0)
    (hm : nextTokenMatch rest = none) :
    advance rest nt first = .error () := by
  unfold advance
  rw [if_neg (by simp [hg]), dif_neg hne, hm]

theorem tokensFrom_none (rest : List Char) : tokensFrom rest none = .ok [] := by
  unfold tokensFrom
  rfl

theorem tokensFrom_step {rest : List Char} {t : TokType} {rest' : List Char}
    {nt' : Option TokType} (h : advance rest (some t) false = .ok (rest', nt'))
    {ts : List TokType} (h2 : tokensFrom rest' nt' = .ok ts) :
    tokensFrom rest (some t) = .ok (t :: ts) := by
  unfold tokensFrom
  split
  · next heq =>
    rw [h] at heq
    exact absurd heq (by simp)
  · next rest2 nt2 heq =>
    rw [h] at heq
    injection heq with heq2
    injection heq2 with e1 e2
    subst e1
    subst e2
    rw [h2]

theorem tokensFrom_fail {rest : List Char} {t : TokType}
    (h : advance rest (some t) false = .error ()) :
    tokensFrom rest (some t) = .error () := by
  unfold tokensFrom
  split
  · rfl
  · next rest2 nt2 heq =>
    rw [h] at heq
    exact absurd heq (by simp)

theorem tokenize_eq {src : List Char} {st : List Char × Option TokType}
    (h : advance src none true = .ok st) : tokenize src = tokensFrom st.1 st.2 := by
  unfold tokenize
  rw [h]

theorem tokenize_fail {src : List Char} (h : advance src none true = .error ()) :
    tokenize src = .error () := by
  unfold tokenize
  rw [h]

/-! ## Lexer pattern-rule lemmas -/

theorem matchWs_notWs {c : Char} {cs : List Char} (h : isWsChar c = false) :
    matchWs (c :: cs) = none := by
  simp [matchWs, List.takeWhile_cons, h]

theorem matchComment_ne {c : Char} {cs : List Char} (h : c ≠ '/') :
    matchComment (c :: cs) = none := by
  unfold matchComment
  split
  · next rest heq =>
    exact absurd (List.head_eq_of_cons_eq heq) h
  · rfl

theorem matchLit_self (kw rest : List Char) :
    matchLit kw (kw ++ rest) = some kw.length := by
  unfold matchLit
  rw [if_pos]
  exact List.isPrefixOf_iff_prefix.mpr (List.prefix_append _ _)

theorem matchLit_head_ne {a b : Char} {as bs : List Char} (h : a ≠ b) :
    matchLit (a :: as) (b :: bs) = none := by
  simp [matchLit, List.isPrefixOf, h]

theorem nextTokenMatch_seqKw (rest : List Char) :
    nextTokenMatch (['s','e','q','u','e','n','c','e'] ++ rest) =
      some (some .sequenceKw, 8) := by
  unfold nextTokenMatch
  rw [show (['s','e','q','u','e','n','c','e'] ++ rest) =
    's' :: (['e','q','u','e','n','c','e'] ++ rest) from rfl]
  rw [matchWs_notWs (by decide), matchComment_ne (by decide)]
  rw [show ('s' :: (['e','q','u','e','n','c','e'] ++ rest)) = "sequence".data ++ rest from rfl]
  rw [matchLit_self]
  rfl

theorem nextTokenMatch_oneofKw (rest : List Char) :
    nextTokenMatch (['o','n','e','o','f'] ++ rest) = some (some .oneofKw, 5) := by
  unfold nextTokenMatch
  rw [show (['o','n','e','o','f'] ++ rest) = 'o' :: (['n','e','o','f'] ++ rest) from rfl]
  rw [matchWs_notWs (by decide), matchComment_ne (by decide)]
  rw [matchLit_head_ne (show 's' ≠ 'o' by decide)]
  rw [show ('o' :: (['n','e','o','f'] ++ rest)) = "oneof".data ++ rest from rfl]
  rw [matchLit_self]
  rfl

theorem nextTokenMatch_enumKw (rest : List Char) :
    nextTokenMatch (['e','n','u','m'] ++ rest) = some (some .enumKw, 4) := by
  unfold nextTokenMatch
  rw [show (['e','n','u','m'] ++ rest) = 'e' :: (['n','u','m'] ++ rest) from rfl]
  rw [matchWs_notWs (by decide), matchComment_ne (by decide)]
  rw [matchLit_head_ne (show 's' ≠ 'e' by decide)]
  rw [matchLit_head_ne (show 'o' ≠ 'e' by decide)]
  rw [show ('e' :: (['n','u','m'] ++ rest)) = "enum".data ++ rest from rfl]
  rw [matchLit_self]
  rfl

/-- C10: whenever the unconsumed input begins with the spelling `sequence`,
`oneof`, or `enum`, the lexer emits that keyword token — even when further
identifier characters follow, since the ordered rule list tries the keyword
rules before the identifier rule; in particular `sequencer` lexes as the
`sequence` keyword followed by the identifier `r`. -/
theorem c10_keyword_precedence (rest : List Char) (t : TokType) :
    advance (['s','e','q','u','e','n','c','e'] ++ rest) (some t) false =
      .ok (rest, some .sequenceKw) ∧
    advance (['o','n','e','o','f'] ++ rest) (some t) false =
      .ok (rest, some .oneofKw) ∧
    advance (['e','n','u','m'] ++ rest) (some t) false =
      .ok (rest, some .enumKw) ∧
    tokenize "sequencer".data = .ok [.sequenceKw, .ident "r"] := by
  refine ⟨?_, ?_, ?_, ?_⟩
  · rw [advance_produce (by simp) (by simp) (nextTokenMatch_seqKw rest)]
    rfl
  · rw [advance_produce (by simp) (by simp) (nextTokenMatch_oneofKw rest)]
    rfl
  · rw [advance_produce (by simp) (by simp) (nextTokenMatch_enumKw rest)]
    rfl
  · have h1 : advance "sequencer".data none true = .ok (['r'], some .sequenceKw) := by
      rw [advance_produce (by simp) (by decide)
        (show nextTokenMatch "sequencer".data = some (some .sequenceKw, 8) from rfl)]
      rfl
    have h2 : advance ['r'] (some .sequenceKw) false = .ok ([], some (.ident "r")) := by
      rw [advance_produce (by simp) (by decide)
        (show nextTokenMatch ['r'] = some (some (.ident "r"), 1) from rfl)]
      rfl
    have h3 : advance ([] : List Char) (some (.ident "r")) false = .ok ([], none) :=
      advance_eof (by simp) rfl
    rw [tokenize_eq h1]
    exact tokensFrom_step h2 (tokensFrom_step h3 (tokensFrom_none _))

/-! ## Whitespace- and comment-skipping lemmas (claim C8) -/

theorem drop_len_append {α : Type} (l₁ l₂ : List α) (n : Nat) :
    (l₁ ++ l₂).drop (l₁.length + n) = l₂.drop n := by
  induction l₁ with
  | nil => simp
  | cons a l ih =>
    rw [show (a :: l).length + n = (l.length + n) + 1 from by simp; omega]
    rw [List.cons_append, List.drop_succ_cons]
    exact ih

theorem takeWhile_all_append {α : Type} {p : α → Bool} {l : List α}
    (h : ∀ a ∈ l, p a = true) (l₂ : List α) :
    (l ++ l₂).takeWhile p = l ++ l₂.takeWhile p := by
  induction l with
  | nil => simp
  | cons a l ih =>
    rw [List.cons_append, List.takeWhile_cons, if_pos (h a (by simp))]
    rw [List.cons_append, ih (fun a ha => h a (by simp [ha]))]

theorem matchWs_append {ws : List Char} (h1 : ws ≠ [])
    (h2 : ∀ c ∈ ws, isWsChar c = true) (rest : List Char) :
    matchWs (ws ++ rest) = some (ws.length + (rest.takeWhile isWsChar).length) := by
  unfold matchWs
  rw [takeWhile_all_append h2, List.length_append]
  rw [if_neg]
  have := List.length_pos.mpr h1
  omega

theorem nextTokenMatch_ws {ws : List Char} (h1 : ws ≠ [])
    (h2 : ∀ c ∈ ws, isWsChar c = true) (rest : List Char) :
    nextTokenMatch (ws ++ rest) =
      some (none, ws.length + (rest.takeWhile isWsChar).length) := by
  unfold nextTokenMatch
  rw [matchWs_append h1 h2]

theorem commentEnd_none_of {body : List Char}
    (h : ∀ c ∈ body, c ≠ '\r' ∧ c ≠ '\n') : commentEnd body = none := by
  induction body with
  | nil => rfl
  | cons c cs ih =>
    unfold commentEnd
    rw [if_neg (by simp [(h c (by simp)).1, (h c (by simp)).2])]
    rw [ih (fun a ha => h a (by simp [ha]))]
    rfl

theorem commentEnd_term {body : List Char}
    (h : ∀ c ∈ body, c ≠ '\r' ∧ c ≠ '\n') {t : Char} (ht : t = '\r' ∨ t = '\n')
    (rest : List Char) :
    commentEnd (body ++ t :: rest) = some (body.length + 1) := by
  induction body with
  | nil =>
    rcases ht with h | h <;> subst h <;> simp [commentEnd]
  | cons c cs ih =>
    rw [List.cons_append]
    unfold commentEnd
    rw [if_neg (by simp [(h c (by simp)).1, (h c (by simp)).2])]
    rw [ih (fun a ha => h a (by simp [ha]))]
    rfl

theorem nextTokenMatch_comment {body : List Char}
    (h : ∀ c ∈ body, c ≠ '\r' ∧ c ≠ '\n') {t : Char} (ht : t = '\r' ∨ t = '\n')
    (rest : List Char) :
    nextTokenMatch ('/' :: '/' :: (body ++ t :: rest)) =
      some (none, body.length + 3) := by
  unfold nextTokenMatch
  rw [matchWs_notWs (by decide)]
  rw [show matchComment ('/' :: '/' :: (body ++ t :: rest)) =
    (commentEnd (body ++ t :: rest)).map (· + 2) from rfl]
  rw [commentEnd_term h ht rest]
  rfl

theorem matchNumber_notNum {c : Char} {cs : List Char} (h : isNumChar c = false) :
    matchNumber (c :: cs) = none := by
  simp [matchNumber, List.takeWhile_cons, h]

theorem matchIdent_notStart {c : Char} {cs : List Char} (h : isIdentStart c = false) :
    matchIdent (c :: cs) = none := by
  simp [matchIdent, h]

theorem nextTokenMatch_eofComment {body : List Char}
    (h : ∀ c ∈ body, c ≠ '\r' ∧ c ≠ '\n') :
    nextTokenMatch ('/' :: '/' :: body) = none := by
  unfold nextTokenMatch
  rw [matchWs_notWs (by decide)]
  rw [show matchComment ('/' :: '/' :: body) = (commentEnd body).map (· + 2) from rfl]
  rw [commentEnd_none_of h]
  rw [matchLit_head_ne (show 's' ≠ '/' by decide)]
  rw [matchLit_head_ne (show 'o' ≠ '/' by decide)]
  rw [matchLit_head_ne (show 'e' ≠ '/' by decide)]
  rw [matchLit_head_ne (show '\x7b' ≠ '/' by decide)]
  rw [matchLit_head_ne (show '\x7d' ≠ '/' by decide)]
  rw [matchLit_head_ne (show '[' ≠ '/' by decide)]
  rw [matchLit_head_ne (show ']' ≠ '/' by decide)]
  rw [matchLit_head_ne (show ':' ≠ '/' by decide)]
  rw [matchLit_head_ne (show ';' ≠ '/' by decide)]
  rw [matchLit_head_ne (show '=' ≠ '/' by decide)]
  rw [matchNumber_notNum (by decide)]
  rw [matchIdent_notStart (by decide)]
  rfl

theorem c8_ws_skip {ws : List Char} (rest : List Char) (t : TokType)
    (h1 : ws ≠ []) (h2 : ∀ c ∈ ws, isWsChar c = true) :
    advance (ws ++ rest) (some t) false = advance rest (some t) false := by
  have hne : ¬(ws ++ rest).length = 0 := by
    intro h0
    rw [List.length_append] at h0
    exact h1 (List.length_eq_zero.mp (by omega))
  rw [advance_skip (by simp) hne (nextTokenMatch_ws h1 h2 rest)]
  rw [drop_len_append]
  by_cases hk : (rest.takeWhile isWsChar).length = 0
  · rw [hk, List.drop_zero]
  · have hne2 : ¬rest.length = 0 := by
      intro h0
      rw [List.length_eq_zero.mp h0] at hk
      simp at hk
    have hm2 : nextTokenMatch rest =
        some (none, (rest.takeWhile isWsChar).length) := by
      unfold nextTokenMatch
      rw [show matchWs rest = some (rest.takeWhile isWsChar).length from by
        unfold matchWs; rw [if_neg hk]]
    rw [advance_skip (by simp) hne2 hm2]

theorem c8_comment_skip {body : List Char} {t : Char} (rest : List Char)
    (tok : TokType) (hb : ∀ c ∈ body, c ≠ '\r' ∧ c ≠ '\n')
    (ht : t = '\r' ∨ t = '\n') :
    advance ('/' :: '/' :: (body ++ t :: rest)) (some tok) false =
      advance rest (some tok) false := by
  have hd : ('/' :: '/' :: (body ++ t :: rest)).drop (body.length + 3) = rest := by
    rw [show ('/' :: '/' :: (body ++ t :: rest)) =
      ('/' :: '/' :: body) ++ (t :: rest) from by simp]
    rw [show body.length + 3 = ('/' :: '/' :: body).length + 1 from by simp]
    rw [drop_len_append]
    rfl
  rw [advance_skip (by simp) (by simp) (nextTokenMatch_comment hb ht rest), hd]

theorem c8_eof_comment {body : List Char} {nt : Option TokType} {first : Bool}
    (hb : ∀ c ∈ body, c ≠ '\r' ∧ c ≠ '\n') (hg : (nt.isNone && !first) = false) :
    advance ('/' :: '/' :: body) nt first = .error () :=
  advance_fail hg (by simp) (nextTokenMatch_eofComment hb)

theorem c8_leading_ws {ws : List Char} (rest : List Char)
    (h1 : ws ≠ []) (h2 : ∀ c ∈ ws, isWsChar c = true) :
    tokenize (ws ++ rest) = .ok [] := by
  have hne : ¬(ws ++ rest).length = 0 := by
    intro h0
    rw [List.length_append] at h0
    exact h1 (List.length_eq_zero.mp (by omega))
  have h3 : advance (ws ++ rest) none true =
      .ok ((ws ++ rest).drop (ws.length + (rest.takeWhile isWsChar).length), none) := by
    rw [advance_skip (by simp) hne (nextTokenMatch_ws h1 h2 rest)]
    exact advance_guard (by simp)
  rw [tokenize_eq h3]
  exact tokensFrom_none _

theorem c8_leading_comment {body : List Char} {t : Char} (rest : List Char)
    (hb : ∀ c ∈ body, c ≠ '\r' ∧ c ≠ '\n') (ht : t = '\r' ∨ t = '\n') :
    tokenize ('/' :: '/' :: (body ++ t :: rest)) = .ok [] := by
  have hd : ('/' :: '/' :: (body ++ t :: rest)).drop (body.length + 3) = rest := by
    rw [show ('/' :: '/' :: (body ++ t :: rest)) =
      ('/' :: '/' :: body) ++ (t :: rest) from by simp]
    rw [show body.length + 3 = ('/' :: '/' :: body).length + 1 from by simp]
    rw [drop_len_append]
    rfl
  have h3 : advance ('/' :: '/' :: (body ++ t :: rest)) none true = .ok (rest, none) := by
    rw [advance_skip (by simp) (by simp) (nextTokenMatch_comment hb ht rest), hd]
    exact advance_guard (by simp)
  rw [tokenize_eq h3]
  exact tokensFrom_none _

/-- C8 counterexample against the claim that line comments and whitespace are
always consumed without a token and without a lexical error, with lexing
continuing at the next token: (1) the source `// hi` — a comment on the last
line terminated by end of input rather than a newline — raises a lexical
error, because the comment rule's regex demands a `\r`/`\n` terminator and no
other rule matches `/`; (2) the source `  x` produces the empty token stream
instead of the identifier `x`, because the skip-recursion in `advance` hits
the not-first/no-pending-token guard at stream start. -/
theorem c8_counterexample :
    tokenize "// hi".data = .error () ∧ tokenize "  x".data = .ok [] := by
  constructor
  · exact tokenize_fail (@c8_eof_comment " hi".data none true (by decide) (by simp))
  · exact @c8_leading_ws [' ', ' '] "x".data (by decide) (by decide)

/-- C8 (amended): once the lexer holds a pending token, a whitespace run or a
line comment terminated by `\r` or `\n` is consumed without producing a token
and without error, and lexing continues at the next token; however a line
comment terminated by end of input raises a lexical error, and a whitespace
run or a newline-terminated line comment at the very start of the input ends
lexing with an empty token stream. -/
theorem c8_trivia_handling :
    (∀ (ws rest : List Char) (t : TokType), ws ≠ [] →
      (∀ c ∈ ws, isWsChar c = true) →
      advance (ws ++ rest) (some t) false = advance rest (some t) false) ∧
    (∀ (body : List Char) (term : Char) (rest : List Char) (t : TokType),
      (∀ c ∈ body, c ≠ '\r' ∧ c ≠ '\n') → (term = '\r' ∨ term = '\n') →
      advance ('/' :: '/' :: (body ++ term :: rest)) (some t) false =
        advance rest (some t) false) ∧
    (∀ (body : List Char) (t : TokType), (∀ c ∈ body, c ≠ '\r' ∧ c ≠ '\n') →
      advance ('/' :: '/' :: body) (some t) false = .error ()) ∧
    (∀ (ws rest : List Char), ws ≠ [] → (∀ c ∈ ws, isWsChar c = true) →
      tokenize (ws ++ rest) = .ok []) ∧
    (∀ (body : List Char) (term : Char) (rest : List Char),
      (∀ c ∈ body, c ≠ '\r' ∧ c ≠ '\n') → (term = '\r' ∨ term = '\n') →
      tokenize ('/' :: '/' :: (body ++ term :: rest)) = .ok []) :=
  ⟨fun ws rest t h1 h2 => c8_ws_skip rest t h1 h2,
   fun _ _ rest t hb ht => c8_comment_skip rest t hb ht,
   fun _ _ hb => c8_eof_comment hb (by simp),
   fun _ rest h1 h2 => c8_leading_ws rest h1 h2,
   fun _ _ rest hb ht => c8_leading_comment rest hb ht⟩

/-- Witness for the amended C8 theorem at concrete inputs: a space before
`enum`, the comment `// hi` terminated by a newline, the same comment
terminated by end of input, a leading space before `x`, and the
newline-terminated comment `// hi` at the start of the input before `x`. -/
theorem c8_trivia_handling_witness :
    (advance ([' '] ++ "enum".data) (some .colon) false =
      advance "enum".data (some .colon) false) ∧
    (advance ('/' :: '/' :: (" hi".data ++ '\n' :: "x".data)) (some .colon) false =
      advance "x".data (some .colon) false) ∧
    (advance ('/' :: '/' :: " hi".data) (some .colon) false = .error ()) ∧
    tokenize ([' '] ++ "x".data) = .ok [] ∧
    tokenize ('/' :: '/' :: (" hi".data ++ '\n' :: "x".data)) = .ok [] := by
  obtain ⟨ha, hb, hc, hd, he⟩ := c8_trivia_handling
  exact ⟨ha [' '] "enum".data .colon (by decide) (by decide),
    hb " hi".data '\n' "x".data .colon (by decide) (by simp),
    hc " hi".data .colon (by decide),
    hd [' '] "x".data (by decide) (by decide),
    he " hi".data '\n' "x".data (by decide) (by simp)⟩

/-! ## Enum width lemmas (claim C3) -/

/-- The unsigned maximum representable at each candidate width. -/
def widthMax (w : Nat) : Nat :=
  if w = 1 then 255
  else if w = 2 then 65535
  else if w = 4 then 4294967295
  else if w = 8 then 18446744073709551615
  else 0

theorem widthMax_mono {a b : Nat} (ha : a = 1 ∨ a = 2 ∨ a = 4 ∨ a = 8)
    (hb : b = 1 ∨ b = 2 ∨ b = 4 ∨ b = 8) (hab : a ≤ b) :
    widthMax a ≤ widthMax b := by
  rcases ha with rfl | rfl | rfl | rfl <;> rcases hb with rfl | rfl | rfl | rfl <;>
    simp [widthMax] <;> omega

theorem parseU64_le {s : String} {pv : Nat} (h : parseU64 s = some pv) :
    pv ≤ 18446744073709551615 := by
  unfold parseU64 at h
  simp only [] at h
  split at h
  · exact absurd h (by simp)
  · split at h
    · split at h
      · cases h
        next h2 => exact h2
      · exact absurd h (by simp)
    · exact absurd h (by simp)

theorem updateEnumSize_eq (cur v : Nat) (hcur : cur = 1 ∨ cur = 2 ∨ cur = 4 ∨ cur = 8) :
    updateEnumSize cur v =
      if cur ≤ 1 ∧ v ≤ 255 then 1
      else if cur ≤ 2 ∧ v ≤ 65535 then 2
      else if cur ≤ 4 ∧ v ≤ 4294967295 then 4
      else if v ≤ 18446744073709551615 then 8
      else cur := by
  rcases hcur with rfl | rfl | rfl | rfl <;>
    by_cases h1 : v ≤ 255 <;> by_cases h2 : v ≤ 65535 <;>
    by_cases h4 : v ≤ 4294967295 <;> by_cases h8 : v ≤ 18446744073709551615 <;>
    first
      | omega
      | simp [updateEnumSize, widthCandidates, List.find?, h1, h2, h4, h8]

theorem updateEnumSize_cases (cur v : Nat)
    (hcur : cur = 1 ∨ cur = 2 ∨ cur = 4 ∨ cur = 8)
    (hv : v ≤ 18446744073709551615) :
    (updateEnumSize cur v = 1 ∨ updateEnumSize cur v = 2 ∨
      updateEnumSize cur v = 4 ∨ updateEnumSize cur v = 8) ∧
    cur ≤ updateEnumSize cur v ∧
    v ≤ widthMax (updateEnumSize cur v) ∧
    (∀ w, (w = 1 ∨ w = 2 ∨ w = 4 ∨ w = 8) → cur ≤ w → v ≤ widthMax w →
      updateEnumSize cur v ≤ w) := by
  rw [updateEnumSize_eq cur v hcur]
  split_ifs with hA hB hC _hD
  · refine ⟨by omega, by omega, by simp [widthMax]; omega, ?_⟩
    rintro w (rfl | rfl | rfl | rfl) hw hvw <;> omega
  · refine ⟨by omega, by omega, by simp [widthMax]; omega, ?_⟩
    rintro w (rfl | rfl | rfl | rfl) hw hvw <;> simp [widthMax] at hvw <;> omega
  · refine ⟨by omega, by omega, by simp [widthMax]; omega, ?_⟩
    rintro w (rfl | rfl | rfl | rfl) hw hvw <;> simp [widthMax] at hvw <;> omega
  · refine ⟨by omega, by omega, by simp [widthMax]; omega, ?_⟩
    rintro w (rfl | rfl | rfl | rfl) hw hvw <;> simp [widthMax] at hvw <;> omega

/-- Any tracked size only ever grows: the width-update loop skips candidates
smaller than the current size, so its result is at least the current size. -/
theorem updateEnumSize_monotone (cur v : Nat) : cur ≤ updateEnumSize cur v := by
  unfold updateEnumSize
  cases hf : widthCandidates.find? (fun p => decide (cur ≤ p.1) && decide (v ≤ p.2)) with
  | none => exact le_rfl
  | some p =>
    have := List.find?_some hf
    simp at this
    exact this.1

theorem parseEnumEntries_spec :
    ∀ (entries : List AstNode) (ename : String) (vars : List EnumVariant)
      (size : Nat) (res : List EnumVariant × Nat),
      parseEnumEntries ename entries vars size = .ok res →
      (size = 1 ∨ size = 2 ∨ size = 4 ∨ size = 8) →
      (∀ v ∈ vars, v.value ≤ widthMax size) →
      (∀ w, (w = 1 ∨ w = 2 ∨ w = 4 ∨ w = 8) →
        (∀ v ∈ vars, v.value ≤ widthMax w) → size ≤ w) →
      (res.2 = 1 ∨ res.2 = 2 ∨ res.2 = 4 ∨ res.2 = 8) ∧
      (∀ v ∈ res.1, v.value ≤ widthMax res.2) ∧
      (∀ w, (w = 1 ∨ w = 2 ∨ w = 4 ∨ w = 8) →
        (∀ v ∈ res.1, v.value ≤ widthMax w) → res.2 ≤ w) := by
  intro entries
  induction entries with
  | nil =>
    intro ename vars size res h hs hvals hmin
    unfold parseEnumEntries at h
    cases h
    exact ⟨hs, hvals, hmin⟩
  | cons e rest ih =>
    intro ename vars size res h hs hvals hmin
    unfold parseEnumEntries at h
    split at h
    · next n v =>
      split at h
      · exact absurd h (by simp)
      · next pv hpv =>
        split at h
        · exact absurd h (by simp)
        · have hple := parseU64_le hpv
          obtain ⟨hu1, hu2, hu3, hu4⟩ := updateEnumSize_cases size pv hs hple
          refine ih ename (vars ++ [⟨n, pv⟩]) (updateEnumSize size pv) res h hu1 ?_ ?_
          · intro w hw
            rcases List.mem_append.mp hw with hw | hw
            · exact le_trans (hvals w hw) (widthMax_mono hs hu1 hu2)
            · simp at hw
              rw [hw]
              exact hu3
          · intro w hw4 hwvals
            refine hu4 w hw4 ?_ ?_
            · exact hmin w hw4 (fun v hv => hwvals v (List.mem_append.mpr (Or.inl hv)))
            · exact hwvals ⟨n, pv⟩ (List.mem_append.mpr (Or.inr (by simp)))
    · exact absurd h (by simp)

theorem parse_enum_spec {name : String} {entries : List AstNode} {e : Enum}
    (h : parse_enum name entries = .ok e) :
    (e.size = 1 ∨ e.size = 2 ∨ e.size = 4 ∨ e.size = 8) ∧
    (∀ v ∈ e.variants, v.value ≤ widthMax e.size) ∧
    (∀ w, (w = 1 ∨ w = 2 ∨ w = 4 ∨ w = 8) →
      (∀ v ∈ e.variants, v.value ≤ widthMax w) → e.size ≤ w) := by
  unfold parse_enum at h
  split at h
  · exact absurd h (by simp)
  · next vars size hp =>
    cases h
    have := parseEnumEntries_spec entries name [] 1 (vars, size) hp
      (by omega) (by simp) (by rintro w (rfl | rfl | rfl | rfl) _ <;> omega)
    exact this

theorem parse_ast_file_inv {children : List AstNode} {r : SBSchema}
    (h : parse_ast (.file children) = .ok r) :
    ∃ m ss es, collectNames (AstNode.dfs (.file children)) [] = .ok m ∧
      parseTopLevel m children = .ok (ss, es) ∧
      r = ⟨backfillAll es ss, es⟩ := by
  unfold parse_ast at h
  cases hc : collectNames (AstNode.dfs (.file children)) [] with
  | error e =>
    rw [hc] at h
    exact absurd h (by simp)
  | ok m =>
    rw [hc] at h
    have h2 : (match parseTopLevel m children with
      | .error e => (.error e : Except String SBSchema)
      | .ok (ss, es) => .ok ⟨backfillAll es ss, es⟩) = .ok r := h
    cases hp : parseTopLevel m children with
    | error e =>
      rw [hp] at h2
      exact absurd h2 (by simp)
    | ok p =>
      obtain ⟨ss, es⟩ := p
      rw [hp] at h2
      injection h2 with h3
      exact ⟨m, ss, es, rfl, hp, h3.symm⟩

theorem parseTopLevel_mem_enum :
    ∀ {children : List AstNode} {m : StructMap} {ss : List Sequence} {es : List Enum},
      parseTopLevel m children = .ok (ss, es) →
      ∀ e ∈ es, ∃ n ents, AstNode.enumDecl n ents ∈ children ∧ parse_enum n ents = .ok e := by
  intro children
  induction children with
  | nil =>
    intro m ss es h
    unfold parseTopLevel at h
    cases h
    simp
  | cons t rest ih =>
    intro m ss es h
    unfold parseTopLevel at h
    split at h
    · next name fields =>
      split at h
      · exact absurd h (by simp)
      · split at h
        · exact absurd h (by simp)
        · next ss' es' hrest =>
          cases h
          intro e he
          obtain ⟨n, ents, hmem, hok⟩ := ih hrest e he
          exact ⟨n, ents, by simp [hmem], hok⟩
    · next name ents0 =>
      split at h
      · exact absurd h (by simp)
      · next en hen =>
        split at h
        · exact absurd h (by simp)
        · next ss' es' hrest =>
          cases h
          intro e he
          rcases List.mem_cons.mp he with rfl | he
          · exact ⟨name, ents0, by simp, hen⟩
          · obtain ⟨n, ents, hmem, hok⟩ := ih hrest e he
            exact ⟨n, ents, by simp [hmem], hok⟩
    · exact absurd h (by simp)

/-- C3: for every successfully compiled enum, the resolved size lies in
{1,2,4,8}, bounds every declared variant's value, and is the smallest such
width; the tracked width never decreases as entries are processed; and an
enum appearing in a compiled file resolves via `parse_enum` on its own
entries alone, independent of every other declaration. -/
theorem c3_enum_width_minimal :
    (∀ (name : String) (entries : List AstNode) (e : Enum),
      parse_enum name entries = .ok e →
      (e.size = 1 ∨ e.size = 2 ∨ e.size = 4 ∨ e.size = 8) ∧
      (∀ v ∈ e.variants, v.value ≤ widthMax e.size) ∧
      (∀ w, (w = 1 ∨ w = 2 ∨ w = 4 ∨ w = 8) →
        (∀ v ∈ e.variants, v.value ≤ widthMax w) → e.size ≤ w)) ∧
    (∀ cur v : Nat, cur ≤ updateEnumSize cur v) ∧
    (∀ (children : List AstNode) (r : SBSchema),
      parse_ast (.file children) = .ok r →
      ∀ e ∈ r.enums, ∃ n ents, AstNode.enumDecl n ents ∈ children ∧
        parse_enum n ents = .ok e) := by
  refine ⟨fun name entries e h => parse_enum_spec h, updateEnumSize_monotone, ?_⟩
  intro children r h e he
  obtain ⟨m, ss, es, _, hp, rfl⟩ := parse_ast_file_inv h
  exact parseTopLevel_mem_enum hp e he

/-- Witness for C3 at the `Color` enum of the end-to-end example: its
resolved size 1 is in the candidate set, bounds all variant values, and is
minimal; and in the compiled file the enum resolves from its own entries. -/
theorem c3_enum_width_minimal_witness :
    (parse_enum "Color" [.enumEntry "Red" "0", .enumEntry "Green" "1",
        .enumEntry "Blue" "2"] = .ok ⟨"Color", 1, [⟨"Red", 0⟩, ⟨"Green", 1⟩, ⟨"Blue", 2⟩]⟩) ∧
    ((1 = 1 ∨ 1 = 2 ∨ 1 = 4 ∨ 1 = 8) ∧
      (∀ v ∈ [(⟨"Red", 0⟩ : EnumVariant), ⟨"Green", 1⟩, ⟨"Blue", 2⟩],
        v.value ≤ widthMax 1)) ∧
    (∃ n ents, AstNode.enumDecl n ents ∈
        [AstNode.enumDecl "Color" [.enumEntry "Red" "0", .enumEntry "Green" "1",
          .enumEntry "Blue" "2"],
         AstNode.seqDecl "Point" [.fieldDecl "x" (.typeRef "i32"),
          .fieldDecl "y" (.typeRef "i32"), .fieldDecl "color" (.typeRef "Color")]] ∧
      parse_enum n ents = .ok ⟨"Color", 1, [⟨"Red", 0⟩, ⟨"Green", 1⟩, ⟨"Blue", 2⟩]⟩) := by
  have hok : parse_enum "Color" [.enumEntry "Red" "0", .enumEntry "Green" "1",
      .enumEntry "Blue" "2"] = .ok ⟨"Color", 1, [⟨"Red", 0⟩, ⟨"Green", 1⟩, ⟨"Blue", 2⟩]⟩ := rfl
  obtain ⟨h1, h2, _⟩ := (c3_enum_width_minimal.1 _ _ _ hok)
  refine ⟨hok, ⟨h1, h2⟩, ?_⟩
  exact (c3_enum_width_minimal.2.2 _ _ (show parse_ast c1ast = .ok c1schema from rfl)
    ⟨"Color", 1, [⟨"Red", 0⟩, ⟨"Green", 1⟩, ⟨"Blue", 2⟩]⟩ (by simp [c1schema]))

/-! ## Layout lemmas (claim C5) -/

/-- Sum of the fixed sizes of a field list. -/
def sumSizes (fs : List SBField) : Nat :=
  (fs.map (fun f => f.ty.size)).sum

theorem foldl_add_size (fs : List SBField) (a : Nat) :
    fs.foldl (fun acc f => acc + f.ty.size) a = a + sumSizes fs := by
  induction fs generalizing a with
  | nil => simp [sumSizes]
  | cons f fs ih =>
    rw [List.foldl_cons, ih]
    simp [sumSizes]
    omega

/-- The generator's total static size is the sum of the per-field sizes. -/
theorem seqStaticSize_eq (s : Sequence) : seqStaticSize s = sumSizes s.fields := by
  unfold seqStaticSize
  rw [foldl_add_size]
  omega

/-- Iterated enum-size injection over a field list, one enum at a time. -/
def backfillFields (es : List Enum) (fs : List SBField) : List SBField :=
  es.foldl (fun fs e => inject_enum_size_into e.name e.size fs) fs

theorem backfillAll_eq_map (es : List Enum) (ss : List Sequence) :
    backfillAll es ss = ss.map (fun s => ⟨s.name, backfillFields es s.fields⟩) := by
  induction es generalizing ss with
  | nil =>
    show ss = _
    have : (fun s : Sequence => (⟨s.name, backfillFields [] s.fields⟩ : Sequence)) =
        fun s => s := by
      funext s
      rfl
    rw [this, List.map_id']
  | cons e es ih =>
    show backfillAll es
      (ss.map (fun s => ⟨s.name, inject_enum_size_into e.name e.size s.fields⟩)) = _
    rw [ih, List.map_map]
    rfl

theorem process_type_primitive_iff {en : String} {es : Nat} {ty : SBType} {p : Primitive} :
    (process_type en es ty).1 = .primitive p ↔ ty = .primitive p := by
  cases ty <;> simp [process_type]
  next n s => split <;> simp

theorem injectGo_allPrim {en : String} {es : Nat} {fs : List SBField} {a : Nat}
    (h : ∀ f ∈ injectGo en es a fs, ∃ p, f.ty = SBType.primitive p) :
    ∀ f ∈ fs, ∃ p, f.ty = SBType.primitive p := by
  induction fs generalizing a with
  | nil => simp
  | cons f rest ih =>
    obtain ⟨n, ty, idx⟩ := f
    intro g hg
    rcases List.mem_cons.mp hg with rfl | hg
    · have hh := h (.mk n (process_type en es ty).1 (idx + a)) (by
        rw [show injectGo en es a (.mk n ty idx :: rest) =
          .mk n (process_type en es ty).1 (idx + a) ::
            injectGo en es (a + (process_type en es ty).2) rest from rfl]
        simp)
      obtain ⟨p, hp⟩ := hh
      exact ⟨p, process_type_primitive_iff.mp hp⟩
    · refine @ih (a + (process_type en es ty).2) ?_ g hg
      intro f2 hf2
      refine h f2 ?_
      rw [show injectGo en es a (.mk n ty idx :: rest) =
        .mk n (process_type en es ty).1 (idx + a) ::
          injectGo en es (a + (process_type en es ty).2) rest from rfl]
      simp [hf2]

theorem injectGo_id_of_allPrim {en : String} {es : Nat} {fs : List SBField}
    (h : ∀ f ∈ fs, ∃ p, f.ty = SBType.primitive p) :
    injectGo en es 0 fs = fs := by
  induction fs with
  | nil => rfl
  | cons f rest ih =>
    obtain ⟨n, ty, idx⟩ := f
    obtain ⟨p, hp⟩ := h (.mk n ty idx) (by simp)
    have hty : ty = SBType.primitive p := hp
    subst hty
    rw [show injectGo en es 0 (.mk n (SBType.primitive p) idx :: rest) =
      .mk n (SBType.primitive p) (idx + 0) :: injectGo en es (0 + 0) rest from rfl]
    rw [ih (fun f hf => h f (by simp [hf]))]
    simp

theorem backfillFields_id_of_allPrim {es : List Enum} {fs : List SBField}
    (h : ∀ f ∈ backfillFields es fs, ∃ p, f.ty = SBType.primitive p) :
    backfillFields es fs = fs := by
  induction es generalizing fs with
  | nil => rfl
  | cons e es ih =>
    have hstep : backfillFields (e :: es) fs =
        backfillFields es (inject_enum_size_into e.name e.size fs) := rfl
    rw [hstep] at h ⊢
    have h1 := ih h
    rw [h1] at h ⊢
    have h2 : ∀ f ∈ fs, ∃ p, f.ty = SBType.primitive p :=
      @injectGo_allPrim e.name e.size fs 0 h
    exact injectGo_id_of_allPrim h2

theorem parseTopLevel_mem_seq :
    ∀ {children : List AstNode} {m : StructMap} {ss : List Sequence} {es : List Enum},
      parseTopLevel m children = .ok (ss, es) →
      ∀ s ∈ ss, ∃ n fields, AstNode.seqDecl n fields ∈ children ∧
        parse_sequence n fields m = .ok s := by
  intro children
  induction children with
  | nil =>
    intro m ss es h
    unfold parseTopLevel at h
    cases h
    simp
  | cons t rest ih =>
    intro m ss es h
    unfold parseTopLevel at h
    split at h
    · next name fields0 =>
      split at h
      · exact absurd h (by simp)
      · next s0 hs0 =>
        split at h
        · exact absurd h (by simp)
        · next ss' es' hrest =>
          cases h
          intro s hs
          rcases List.mem_cons.mp hs with rfl | hs
          · exact ⟨name, fields0, by simp, hs0⟩
          · obtain ⟨n, fields, hmem, hok⟩ := ih hrest s hs
            exact ⟨n, fields, by simp [hmem], hok⟩
    · next name ents0 =>
      split at h
      · exact absurd h (by simp)
      · split at h
        · exact absurd h (by simp)
        · next ss' es' hrest =>
          cases h
          intro s hs
          obtain ⟨n, fields, hmem, hok⟩ := ih hrest s hs
          exact ⟨n, fields, by simp [hmem], hok⟩
    · exact absurd h (by simp)

theorem parseSeqFields_offsets :
    ∀ (fields : List AstNode) (sname : String) (m : StructMap) (names : List String)
      (off : Nat) (fs : List SBField),
      parseSeqFields sname m fields names off = .ok fs →
      ∀ i (h : i < fs.length), (fs.get ⟨i, h⟩).index = off + sumSizes (fs.take i) := by
  intro fields
  induction fields with
  | nil =>
    intro sname m names off fs h
    unfold parseSeqFields at h
    cases h
    intro i hi
    simp at hi
  | cons f rest ih =>
    intro sname m names off fs h
    unfold parseSeqFields at h
    split at h
    · next fname ftype =>
      split at h
      · exact absurd h (by simp)
      · split at h
        · exact absurd h (by simp)
        · next ft hft =>
          split at h
          · exact absurd h (by simp)
          · next tail htail =>
            cases h
            intro i hi
            match i with
            | 0 => simp [sumSizes, SBField.index]
            | j + 1 =>
              have := ih sname m (names ++ [fname]) (off + ft.size) tail htail j
                (by simp at hi ⊢; omega)
              simp only [List.get_cons_succ, List.take_succ_cons] at this ⊢
              rw [this]
              simp [sumSizes, SBField.ty]
              omega
    · exact absurd h (by simp)

/-- C5: for every compiled schema, every sequence in the resolved output
whose fields all have primitive types has each field's byte offset equal to
the sum of the sizes of the strictly preceding fields in declaration order,
and the sum of all per-field sizes equals the sequence's total static size. -/
theorem c5_primitive_layout :
    ∀ (children : List AstNode) (r : SBSchema) (sq : Sequence),
      parse_ast (.file children) = .ok r → sq ∈ r.sequences →
      (∀ f ∈ sq.fields, ∃ p, f.ty = SBType.primitive p) →
      (∀ i (h : i < sq.fields.length),
        (sq.fields.get ⟨i, h⟩).index = sumSizes (sq.fields.take i)) ∧
      sumSizes sq.fields = seqStaticSize sq := by
  intro children r sq hok hmem hprim
  obtain ⟨m, ss, es, _hc, hp, rfl⟩ := parse_ast_file_inv hok
  rw [show (SBSchema.mk (backfillAll es ss) es).sequences = backfillAll es ss from rfl,
    backfillAll_eq_map] at hmem
  obtain ⟨sq0, hsq0, rfl⟩ := List.mem_map.mp hmem
  have hfe : (Sequence.mk sq0.name (backfillFields es sq0.fields)).fields =
      backfillFields es sq0.fields := rfl
  rw [hfe] at hprim ⊢
  have hbid : backfillFields es sq0.fields = sq0.fields :=
    backfillFields_id_of_allPrim hprim
  rw [hbid]
  obtain ⟨n, fieldsAst, _hmem2, hps⟩ := parseTopLevel_mem_seq hp sq0 hsq0
  have hsf : parseSeqFields n m fieldsAst [] 0 = .ok sq0.fields := by
    unfold parse_sequence at hps
    split at hps
    · exact absurd hps (by simp)
    · next fs hfs =>
      cases hps
      exact hfs
  constructor
  · intro i hi
    have := parseSeqFields_offsets fieldsAst n m [] 0 sq0.fields hsf i hi
    simpa using this
  · rw [seqStaticSize_eq]

/-- Syntax tree of `sequence P { a: u8; b: i32; }`. -/
def c5ast : AstNode :=
  .file [.seqDecl "P" [.fieldDecl "a" (.typeRef "u8"), .fieldDecl "b" (.typeRef "i32")]]

/-- The resolved sequence of `c5ast`. -/
def c5seq : Sequence :=
  ⟨"P", [.mk "a" (.primitive .u8) 0, .mk "b" (.primitive .i32) 1]⟩

/-- The resolved schema of `c5ast`. -/
def c5schema : SBSchema := ⟨[c5seq], []⟩

/-- Witness for C5 at `sequence P { a: u8; b: i32; }`: field `a` sits at
offset 0, field `b` at offset 1 (the size of `a`), and the per-field sizes
sum to the static size 5. -/
theorem c5_primitive_layout_witness :
    ((c5seq.fields.get ⟨0, by decide⟩).index = sumSizes (c5seq.fields.take 0)) ∧
    ((c5seq.fields.get ⟨1, by decide⟩).index = sumSizes (c5seq.fields.take 1)) ∧
    sumSizes c5seq.fields = seqStaticSize c5seq := by
  have h := c5_primitive_layout
    [.seqDecl "P" [.fieldDecl "a" (.typeRef "u8"), .fieldDecl "b" (.typeRef "i32")]]
    c5schema c5seq rfl (by simp [c5schema]) ?_
  · exact ⟨h.1 0 (by decide), h.1 1 (by decide), h.2⟩
  · intro f hf
    simp [c5seq] at hf
    rcases hf with rfl | rfl
    · exact ⟨.u8, rfl⟩
    · exact ⟨.i32, rfl⟩

/-! ## Uniqueness lemmas (claim C6) -/

/-- The declared sequence/enum names of a node list, in order. -/
def declNames (nodes : List AstNode) : List String :=
  nodes.filterMap (fun n =>
    match n with
    | .seqDecl name _ => some name
    | .enumDecl name _ => some name
    | _ => none)

/-- The declared field names of a field-node list, in order. -/
def astFieldNames (nodes : List AstNode) : List String :=
  nodes.filterMap (fun n =>
    match n with
    | .fieldDecl name _ => some name
    | _ => none)

theorem lookup_cons_none {x k : String} {v : StructType} {m : StructMap}
    (h : List.lookup x ((k, v) :: m) = none) : x ≠ k ∧ List.lookup x m = none := by
  rw [List.lookup_cons] at h
  split at h
  · exact absurd h (by simp)
  · next hne =>
    refine ⟨?_, h⟩
    intro hx
    rw [hx] at hne
    simp at hne

theorem verify_ok_lookup {name : String} {m : StructMap}
    (h : verify_struct_name name m = .ok ()) : List.lookup name m = none := by
  unfold verify_struct_name at h
  split at h
  · exact absurd h (by simp)
  · split at h
    · exact absurd h (by simp)
    · next hs => exact Option.not_isSome_iff_eq_none.mp hs

theorem collectNames_nodup :
    ∀ (nodes : List AstNode) (m m' : StructMap), collectNames nodes m = .ok m' →
      (declNames nodes).Nodup ∧ ∀ x ∈ declNames nodes, List.lookup x m = none := by
  intro nodes
  induction nodes with
  | nil =>
    intro m m' h
    simp [declNames]
  | cons n rest ih =>
    intro m m' h
    unfold collectNames at h
    split at h
    · next name fields =>
      split at h
      · exact absurd h (by simp)
      · next hv =>
        obtain ⟨nd, hlk⟩ := ih _ _ h
        have hself : List.lookup name m = none := by
          cases hv' : verify_struct_name name m with
          | error e => rw [hv'] at hv; exact absurd hv (by simp)
          | ok u => cases u; exact verify_ok_lookup hv'
        have hdn : declNames (AstNode.seqDecl name fields :: rest) =
            name :: declNames rest := by simp [declNames]
        rw [hdn]
        constructor
        · refine List.nodup_cons.mpr ⟨?_, nd⟩
          intro hmem
          exact absurd (hlk name hmem) (by simp [lookup_cons_none, List.lookup_cons])
        · intro x hx
          rcases List.mem_cons.mp hx with rfl | hx
          · exact hself
          · exact (lookup_cons_none (hlk x hx)).2
    · next name entries =>
      split at h
      · exact absurd h (by simp)
      · next hv =>
        obtain ⟨nd, hlk⟩ := ih _ _ h
        have hself : List.lookup name m = none := by
          cases hv' : verify_struct_name name m with
          | error e => rw [hv'] at hv; exact absurd hv (by simp)
          | ok u => cases u; exact verify_ok_lookup hv'
        have hdn : declNames (AstNode.enumDecl name entries :: rest) =
            name :: declNames rest := by simp [declNames]
        rw [hdn]
        constructor
        · refine List.nodup_cons.mpr ⟨?_, nd⟩
          intro hmem
          exact absurd (hlk name hmem) (by simp [lookup_cons_none, List.lookup_cons])
        · intro x hx
          rcases List.mem_cons.mp hx with rfl | hx
          · exact hself
          · exact (lookup_cons_none (hlk x hx)).2
    · next hn1 hn2 =>
      have hdn : declNames (n :: rest) = declNames rest := by
        cases n <;> simp [declNames] <;> simp_all
      rw [hdn]
      exact ih _ _ h

theorem parseSeqFields_names_nodup :
    ∀ (fields : List AstNode) (sname : String) (m : StructMap) (names : List String)
      (off : Nat) (fs : List SBField),
      parseSeqFields sname m fields names off = .ok fs →
      (astFieldNames fields).Nodup ∧ ∀ x ∈ astFieldNames fields, x ∉ names := by
  intro fields
  induction fields with
  | nil =>
    intro sname m names off fs h
    simp [astFieldNames]
  | cons f rest ih =>
    intro sname m names off fs h
    unfold parseSeqFields at h
    split at h
    · next fname ftype =>
      split at h
      · exact absurd h (by simp)
      · next hcon =>
        split at h
        · exact absurd h (by simp)
        · next ft hft =>
          split at h
          · exact absurd h (by simp)
          · next tail htail =>
            obtain ⟨nd, hnin⟩ := ih sname m (names ++ [fname]) (off + ft.size) tail htail
            have hdn : astFieldNames (AstNode.fieldDecl fname ftype :: rest) =
                fname :: astFieldNames rest := by simp [astFieldNames]
            rw [hdn]
            have hfn : fname ∉ names := by
              intro hmem
              exact hcon (List.elem_eq_true_of_mem hmem)
            constructor
            · refine List.nodup_cons.mpr ⟨?_, nd⟩
              intro hmem
              have := hnin fname hmem
              simp at this
            · intro x hx
              rcases List.mem_cons.mp hx with rfl | hx
              · exact hfn
              · have := hnin x hx
                simp at this
                exact fun hmem => absurd hmem this.1
    · exact absurd h (by simp)

theorem parseOneOfFields_names_nodup :
    ∀ (fields : List AstNode) (m : StructMap) (i : Nat) (names : List String)
      (res : List SBField),
      parseOneOfFields m fields i names = .ok res →
      (astFieldNames fields).Nodup ∧ ∀ x ∈ astFieldNames fields, x ∉ names := by
  intro fields
  induction fields with
  | nil =>
    intro m i names res h
    simp [astFieldNames]
  | cons f rest ih =>
    intro m i names res h
    unfold parseOneOfFields at h
    split at h
    · next fname ftype =>
      split at h
      · exact absurd h (by simp)
      · next hcon =>
        split at h
        · exact absurd h (by simp)
        · next ft hft =>
          split at h
          · exact absurd h (by simp)
          · next tail htail =>
            obtain ⟨nd, hnin⟩ := ih m (i + 1) (names ++ [fname]) tail htail
            have hdn : astFieldNames (AstNode.fieldDecl fname ftype :: rest) =
                fname :: astFieldNames rest := by simp [astFieldNames]
            rw [hdn]
            have hfn : fname ∉ names := by
              intro hmem
              exact hcon (List.elem_eq_true_of_mem hmem)
            constructor
            · refine List.nodup_cons.mpr ⟨?_, nd⟩
              intro hmem
              have := hnin fname hmem
              simp at this
            · intro x hx
              rcases List.mem_cons.mp hx with rfl | hx
              · exact hfn
              · have := hnin x hx
                simp at this
                exact fun hmem => absurd hmem this.1
    · exact absurd h (by simp)

theorem findEnumDup_none {ename n : String} {pv : Nat} :
    ∀ {vars : List EnumVariant}, findEnumDup ename n pv vars = none →
      ∀ w ∈ vars, w.name ≠ n ∧ w.value ≠ pv := by
  intro vars
  induction vars with
  | nil => simp
  | cons w ws ih =>
    intro h v hv
    unfold findEnumDup at h
    split at h
    · exact absurd h (by simp)
    · next hn =>
      split at h
      · exact absurd h (by simp)
      · next hval =>
        rcases List.mem_cons.mp hv with rfl | hv
        · exact ⟨hn, hval⟩
        · exact ih h v hv

theorem parseEnumEntries_nodup :
    ∀ (entries : List AstNode) (ename : String) (vars : List EnumVariant)
      (size : Nat) (res : List EnumVariant × Nat),
      parseEnumEntries ename entries vars size = .ok res →
      (vars.map EnumVariant.name).Nodup → (vars.map EnumVariant.value).Nodup →
      (res.1.map EnumVariant.name).Nodup ∧ (res.1.map EnumVariant.value).Nodup := by
  intro entries
  induction entries with
  | nil =>
    intro ename vars size res h hn hv
    unfold parseEnumEntries at h
    cases h
    exact ⟨hn, hv⟩
  | cons e rest ih =>
    intro ename vars size res h hn hv
    unfold parseEnumEntries at h
    split at h
    · next n v =>
      split at h
      · exact absurd h (by simp)
      · next pv hpv =>
        split at h
        · exact absurd h (by simp)
        · next hdup =>
          have hd := findEnumDup_none hdup
          refine ih ename (vars ++ [⟨n, pv⟩]) (updateEnumSize size pv) res h ?_ ?_
          · rw [List.map_append]
            rw [List.nodup_append]
            refine ⟨hn, by simp, ?_⟩
            intro x hx
            obtain ⟨w, hw, rfl⟩ := List.mem_map.mp hx
            simp
            exact (hd w hw).1
          · rw [List.map_append]
            rw [List.nodup_append]
            refine ⟨hv, by simp, ?_⟩
            intro x hx
            obtain ⟨w, hw, rfl⟩ := List.mem_map.mp hx
            simp
            exact (hd w hw).2
    · exact absurd h (by simp)

/-- Syntax tree of `sequence A { x: u8; } sequence B { x: u8; }`: the same
field name reused across two different sequences. -/
def c6ast : AstNode :=
  .file [.seqDecl "A" [.fieldDecl "x" (.typeRef "u8")],
         .seqDecl "B" [.fieldDecl "x" (.typeRef "u8")]]

/-- The resolved schema of `c6ast`. -/
def c6schema : SBSchema :=
  ⟨[⟨"A", [.mk "x" (.primitive .u8) 0]⟩, ⟨"B", [.mk "x" (.primitive .u8) 0]⟩], []⟩

/-- C6: compilation fails with a semantic error whenever two sequence/enum
declarations share a name, two fields share a name within one sequence or
within one oneof, or two enum entries share a name or a value within one
enum; while the same name reused across different scopes (field `x` in two
different sequences) is accepted. -/
theorem c6_uniqueness :
    (∀ root : AstNode, ¬(declNames (AstNode.dfs root)).Nodup →
      isErrB (parse_ast root) = true) ∧
    (∀ (name : String) (fields : List AstNode) (m : StructMap),
      ¬(astFieldNames fields).Nodup → isErrB (parse_sequence name fields m) = true) ∧
    (∀ (m : StructMap) (fields : List AstNode),
      ¬(astFieldNames fields).Nodup →
      isErrB (parse_type m (.oneOfType fields)) = true) ∧
    (∀ (name : String) (entries : List AstNode) (e : Enum),
      parse_enum name entries = .ok e →
      (e.variants.map EnumVariant.name).Nodup ∧
      (e.variants.map EnumVariant.value).Nodup) ∧
    parse_ast c6ast = .ok c6schema := by
  refine ⟨?_, ?_, ?_, ?_, rfl⟩
  · intro root hnd
    cases h : parse_ast root with
    | error e => rfl
    | ok r =>
      exfalso
      apply hnd
      unfold parse_ast at h
      cases hc : collectNames (AstNode.dfs root) [] with
      | error e => rw [hc] at h; exact absurd h (by simp)
      | ok m => exact (collectNames_nodup _ _ _ hc).1
  · intro name fields m hnd
    cases h : parse_sequence name fields m with
    | error e => rfl
    | ok s =>
      exfalso
      apply hnd
      unfold parse_sequence at h
      cases hf : parseSeqFields name m fields [] 0 with
      | error e => rw [hf] at h; exact absurd h (by simp)
      | ok fs => exact (parseSeqFields_names_nodup _ _ _ _ _ _ hf).1
  · intro m fields hnd
    cases h : parse_type m (.oneOfType fields) with
    | error e => rfl
    | ok t =>
      exfalso
      apply hnd
      have h2 : (match parseOneOfFields m fields 0 [] with
        | .error e => (.error e : Except String SBType)
        | .ok fs => .ok (.oneOf fs)) = .ok t := h
      cases hf : parseOneOfFields m fields 0 [] with
      | error e => rw [hf] at h2; exact absurd h2 (by simp)
      | ok fs => exact (parseOneOfFields_names_nodup _ _ _ _ _ hf).1
  · intro name entries e h
    unfold parse_enum at h
    split at h
    · exact absurd h (by simp)
    · next vars size hp =>
      cases h
      exact parseEnumEntries_nodup entries name [] 1 (vars, size) hp (by simp) (by simp)

/-- Witness for C6 at concrete duplicate inputs: a file declaring `D` twice
fails, a sequence with two fields `x` fails, a oneof with two fields `y`
fails, the uniqueness consequences hold for the `Color` enum, and the
cross-scope reuse schema compiles. -/
theorem c6_uniqueness_witness :
    isErrB (parse_ast (.file [.seqDecl "D" [], .seqDecl "D" []])) = true ∧
    isErrB (parse_sequence "S"
      [.fieldDecl "x" (.typeRef "u8"), .fieldDecl "x" (.typeRef "u8")] []) = true ∧
    isErrB (parse_type [] (.oneOfType
      [.fieldDecl "y" (.typeRef "u8"), .fieldDecl "y" (.typeRef "u8")])) = true ∧
    (([("Red" : String), "Green", "Blue"]).Nodup ∧ ([(0 : Nat), 1, 2]).Nodup) ∧
    parse_ast c6ast = .ok c6schema := by
  obtain ⟨h1, h2, h3, h4, h5⟩ := c6_uniqueness
  refine ⟨h1 _ (by decide), h2 "S" _ [] (by decide), h3 [] _ (by decide), ?_, h5⟩
  have := h4 "Color" [.enumEntry "Red" "0", .enumEntry "Green" "1", .enumEntry "Blue" "2"]
    ⟨"Color", 1, [⟨"Red", 0⟩, ⟨"Green", 1⟩, ⟨"Blue", 2⟩]⟩ rfl
  simpa using this

/-! ## Reserved-check traversal paths (claim C7) -/

mutual
/-- The (context stack, name) pairs actually visited by `check_field`: the
field's own name, plus — only when the field's type is directly a oneof —
its subfields' pairs with the field's name appended to their stacks. -/
def fieldPaths : SBField → List (List String × String)
  | .mk n ty _ =>
    ([], n) :: (match ty with
      | .oneOf subs => (fieldListPaths subs).map (fun p => (p.1 ++ [n], p.2))
      | _ => [])

/-- The pairs visited across a field list, in order. -/
def fieldListPaths : List SBField → List (List String × String)
  | [] => []
  | f :: fs => fieldPaths f ++ fieldListPaths fs
end

/-- The pairs visited by `check_reserved`'s enum pass, in order. -/
def enumPaths : List Enum → List (List String × String)
  | [] => []
  | e :: es =>
    (([], e.name) :: e.variants.map (fun v => ([e.name], v.name))) ++ enumPaths es

/-- The pairs visited by `check_reserved`'s sequence pass, in order. -/
def seqPaths : List Sequence → List (List String × String)
  | [] => []
  | s :: ss =>
    (([], s.name) :: (fieldListPaths s.fields).map (fun p => (p.1 ++ [s.name], p.2)))
      ++ seqPaths ss

/-- All (context stack, name) pairs visited by `check_reserved`: enums (and
their variants) first, then sequences (and their fields). -/
def schemaCheckedPaths (s : SBSchema) : List (List String × String) :=
  enumPaths s.enums ++ seqPaths s.sequences

mutual
/-- Modelled from the spec: every declared field name "anywhere inside a
field's type", descending into arrays as well as oneofs, as the claim's
"nested anywhere" reading requires. -/
def specFieldNames : SBField → List String
  | .mk n ty _ => n :: specTypeNames ty

/-- Modelled from the spec: the declared names inside a type, descending
through arrays and oneofs. -/
def specTypeNames : SBType → List String
  | .oneOf subs => specFieldListNames subs
  | .array t => specTypeNames t
  | _ => []

/-- Modelled from the spec: the declared names across a field list. -/
def specFieldListNames : List SBField → List String
  | [] => []
  | f :: fs => specFieldNames f ++ specFieldListNames fs
end

/-- Modelled from the spec: every declared name anywhere in the schema — the
sequence names, the field names including fields of oneofs nested anywhere
inside a field's type, the enum names, and the enum variant names. -/
def specDeclaredNames (s : SBSchema) : List String :=
  (s.sequences.map (fun sq => sq.name :: specFieldListNames sq.fields)).join ++
  (s.enums.map (fun e => e.name :: e.variants.map EnumVariant.name)).join

/-- A field of type array-of-oneof whose oneof field is named `bad`. -/
def c7field : SBField :=
  .mk "g" (.array (.oneOf [.mk "bad" (.primitive .u8) 0])) 0

/-- A schema whose single sequence has a field of type array-of-oneof with a
oneof field named `bad`. -/
def c7schema : SBSchema := ⟨[⟨"S", [c7field]⟩], []⟩

/-- The reserved-word list containing only `bad`. -/
def c7reserved : List String := ["bad"]

/-- C7 counterexample: the reserved-identifier check succeeds on a schema in
which a declared name (`bad`, a field of a oneof nested inside an array
type) coincides verbatim with a reserved word, because `check_field` only
descends into a oneof when it is the field's type directly, never through an
array. -/
theorem c7_counterexample :
    check_reserved c7schema c7reserved = .ok () ∧
    "bad" ∈ specDeclaredNames c7schema ∧
    find_match "bad" c7reserved = some "bad" := by
  refine ⟨?_, ?_, rfl⟩
  · have hS : find_match "S" c7reserved = none := rfl
    have hg : find_match "g" c7reserved = none := rfl
    simp [check_reserved, checkEnums, checkSeqs, c7schema, c7field, checkFieldList,
      check_field, hS, hg]
  · simp [specDeclaredNames, c7schema, c7field, specFieldNames, specTypeNames,
      specFieldListNames]

theorem find_match_some {n : String} {r : List String} {m : String}
    (h : find_match n r = some m) : m ∈ r ∧ toSnakeCase n = toSnakeCase m := by
  unfold find_match at h
  refine ⟨List.mem_of_find?_eq_some h, ?_⟩
  have := List.find?_some h
  simpa using this

theorem fieldListPaths_nil : fieldListPaths [] = [] := rfl

theorem fieldListPaths_cons (f : SBField) (fs : List SBField) :
    fieldListPaths (f :: fs) = fieldPaths f ++ fieldListPaths fs := by
  simp only [fieldListPaths]

mutual
theorem check_field_ok (r : List String) : (f : SBField) →
    (check_field r f = .ok () ↔ ∀ p ∈ fieldPaths f, find_match p.2 r = none)
  | .mk n ty idx => by
    cases hm : find_match n r with
    | some m =>
      have hcf : check_field r (.mk n ty idx) = .error ⟨.field, [], n, m⟩ := by
        cases ty <;> simp only [check_field] <;> rw [hm]
      have hfp : ([], n) ∈ fieldPaths (SBField.mk n ty idx) := by
        cases ty <;> simp only [fieldPaths] <;> simp
      rw [hcf]
      apply iff_of_false (by simp)
      intro hall
      have h1 := hall ([], n) hfp
      rw [h1] at hm
      exact absurd hm (by simp)
    | none =>
      cases ty
      case oneOf subs =>
        have hcf : check_field r (.mk n (.oneOf subs) idx) = checkFieldList r n subs := by
          simp only [check_field]
          rw [hm]
        have hfp : fieldPaths (SBField.mk n (.oneOf subs) idx) =
            ([], n) :: (fieldListPaths subs).map (fun p => (p.1 ++ [n], p.2)) := by
          simp only [fieldPaths]
        rw [hcf, checkFieldList_ok r n subs, hfp]
        constructor
        · intro hsubs p hp
          rcases List.mem_cons.mp hp with rfl | hp
          · exact hm
          · obtain ⟨q, hq, rfl⟩ := List.mem_map.mp hp
            exact hsubs q hq
        · intro hall q hq
          exact hall (q.1 ++ [n], q.2)
            (List.mem_cons.mpr (Or.inr (List.mem_map.mpr ⟨q, hq, rfl⟩)))
      all_goals
        refine iff_of_true (by simp only [check_field]; rw [hm]) ?_
        intro p hp
        simp only [fieldPaths] at hp
        simp at hp
        rw [hp]
        exact hm

theorem checkFieldList_ok (r : List String) (parent : String) : (fs : List SBField) →
    (checkFieldList r parent fs = .ok () ↔
      ∀ p ∈ fieldListPaths fs, find_match p.2 r = none)
  | [] => by
    simp only [checkFieldList, fieldListPaths]
    simp
  | f :: fs => by
    have hcl : checkFieldList r parent (f :: fs) =
        match check_field r f with
        | .error e => .error (bubble e parent)
        | .ok _ => checkFieldList r parent fs := by
      simp only [checkFieldList]
    rw [hcl, fieldListPaths_cons]
    cases hc : check_field r f with
    | error e =>
      apply iff_of_false (by simp)
      intro hall
      have h1 : check_field r f = .ok () := (check_field_ok r f).mpr (fun p hp =>
        hall p (List.mem_append.mpr (Or.inl hp)))
      rw [hc] at h1
      exact absurd h1 (by simp)
    | ok u =>
      cases u
      rw [checkFieldList_ok r parent fs]
      have hf := (check_field_ok r f).mp hc
      constructor
      · intro hrest p hp
        rcases List.mem_append.mp hp with hp | hp
        · exact hf p hp
        · exact hrest p hp
      · intro hall p hp
        exact hall p (List.mem_append.mpr (Or.inr hp))
end

theorem checkVariants_ok (r : List String) (en : String) :
    ∀ vs : List EnumVariant,
      (checkVariants r en vs = .ok () ↔ ∀ v ∈ vs, find_match v.name r = none) := by
  intro vs
  induction vs with
  | nil => simp [checkVariants]
  | cons v vs ih =>
    simp only [checkVariants]
    cases hm : find_match v.name r with
    | some m =>
      apply iff_of_false (by simp)
      intro hall
      have := hall v (by simp)
      rw [hm] at this
      exact absurd this (by simp)
    | none =>
      rw [ih]
      constructor
      · intro hrest w hw
        rcases List.mem_cons.mp hw with rfl | hw
        · exact hm
        · exact hrest w hw
      · intro hall w hw
        exact hall w (by simp [hw])

theorem checkEnums_ok (r : List String) :
    ∀ es : List Enum,
      (checkEnums r es = .ok () ↔ ∀ p ∈ enumPaths es, find_match p.2 r = none) := by
  intro es
  induction es with
  | nil => simp [checkEnums, enumPaths]
  | cons e es ih =>
    simp only [checkEnums]
    cases hm : find_match e.name r with
    | some m =>
      apply iff_of_false (by simp)
      intro hall
      have := hall ([], e.name) (by simp only [enumPaths]; simp)
      rw [hm] at this
      exact absurd this (by simp)
    | none =>
      cases hv : checkVariants r e.name e.variants with
      | error e2 =>
        apply iff_of_false (by simp)
        intro hall
        have h1 : checkVariants r e.name e.variants = .ok () :=
          (checkVariants_ok r e.name e.variants).mpr (fun v hvmem =>
            hall ([e.name], v.name)
              (by simp only [enumPaths]
                  exact List.mem_append.mpr (Or.inl (List.mem_cons.mpr (Or.inr
                    (List.mem_map.mpr ⟨v, hvmem, rfl⟩))))))
        rw [hv] at h1
        exact absurd h1 (by simp)
      | ok u =>
        cases u
        rw [ih]
        have hvars := (checkVariants_ok r e.name e.variants).mp hv
        simp only [enumPaths]
        constructor
        · intro hrest p hp
          rcases List.mem_append.mp hp with hp | hp
          · rcases List.mem_cons.mp hp with rfl | hp
            · exact hm
            · obtain ⟨v, hvmem, rfl⟩ := List.mem_map.mp hp
              exact hvars v hvmem
          · exact hrest p hp
        · intro hall p hp
          exact hall p (List.mem_append.mpr (Or.inr hp))

theorem checkSeqs_ok (r : List String) :
    ∀ ss : List Sequence,
      (checkSeqs r ss = .ok () ↔ ∀ p ∈ seqPaths ss, find_match p.2 r = none) := by
  intro ss
  induction ss with
  | nil => simp [checkSeqs, seqPaths]
  | cons s ss ih =>
    simp only [checkSeqs]
    cases hm : find_match s.name r with
    | some m =>
      apply iff_of_false (by simp)
      intro hall
      have := hall ([], s.name) (by simp only [seqPaths]; simp)
      rw [hm] at this
      exact absurd this (by simp)
    | none =>
      cases hf : checkFieldList r s.name s.fields with
      | error e2 =>
        apply iff_of_false (by simp)
        intro hall
        have h1 : checkFieldList r s.name s.fields = .ok () :=
          (checkFieldList_ok r s.name s.fields).mpr (fun q hq =>
            hall (q.1 ++ [s.name], q.2)
              (by simp only [seqPaths]
                  exact List.mem_append.mpr (Or.inl (List.mem_cons.mpr (Or.inr
                    (List.mem_map.mpr ⟨q, hq, rfl⟩))))))
        rw [hf] at h1
        exact absurd h1 (by simp)
      | ok u =>
        cases u
        rw [ih]
        have hflds := (checkFieldList_ok r s.name s.fields).mp hf
        simp only [seqPaths]
        constructor
        · intro hrest p hp
          rcases List.mem_append.mp hp with hp | hp
          · rcases List.mem_cons.mp hp with rfl | hp
            · exact hm
            · obtain ⟨q, hq, rfl⟩ := List.mem_map.mp hp
              exact hflds q hq
          · exact hrest p hp
        · intro hall p hp
          exact hall p (List.mem_append.mpr (Or.inr hp))

theorem check_reserved_ok (s : SBSchema) (r : List String) :
    check_reserved s r = .ok () ↔
      ∀ p ∈ schemaCheckedPaths s, find_match p.2 r = none := by
  simp only [check_reserved]
  cases he : checkEnums r s.enums with
  | error e =>
    apply iff_of_false (by simp)
    intro hall
    have h1 : checkEnums r s.enums = .ok () := (checkEnums_ok r s.enums).mpr (fun p hp =>
      hall p (by simp only [schemaCheckedPaths]; exact List.mem_append.mpr (Or.inl hp)))
    rw [he] at h1
    exact absurd h1 (by simp)
  | ok u =>
    cases u
    rw [checkSeqs_ok r s.sequences]
    have hes := (checkEnums_ok r s.enums).mp he
    simp only [schemaCheckedPaths]
    constructor
    · intro hrest p hp
      rcases List.mem_append.mp hp with hp | hp
      · exact hes p hp
      · exact hrest p hp
    · intro hall p hp
      exact hall p (List.mem_append.mpr (Or.inr hp))

mutual
theorem check_field_err (r : List String) : (f : SBField) → ∀ e : ReserveCheckError,
    check_field r f = .error e →
    (e.nameStack, e.name) ∈ fieldPaths f ∧ e.matched ∈ r ∧
      toSnakeCase e.name = toSnakeCase e.matched
  | .mk n ty idx => by
    intro e he
    cases hm : find_match n r with
    | some m =>
      have hcf : check_field r (.mk n ty idx) = .error ⟨.field, [], n, m⟩ := by
        cases ty <;> simp only [check_field] <;> rw [hm]
      rw [hcf] at he
      injection he with he2
      subst he2
      obtain ⟨hmem, hsnake⟩ := find_match_some hm
      refine ⟨?_, hmem, hsnake⟩
      cases ty <;> simp only [fieldPaths] <;> simp
    | none =>
      cases ty
      case oneOf subs =>
        have hcf : check_field r (.mk n (.oneOf subs) idx) = checkFieldList r n subs := by
          simp only [check_field]
          rw [hm]
        rw [hcf] at he
        obtain ⟨⟨q, hq, hst, hnm⟩, hmem, hsnake⟩ := checkFieldList_err r n subs e he
        refine ⟨?_, hmem, hsnake⟩
        have hfp : fieldPaths (SBField.mk n (.oneOf subs) idx) =
            ([], n) :: (fieldListPaths subs).map (fun p => (p.1 ++ [n], p.2)) := by
          simp only [fieldPaths]
        rw [hfp]
        refine List.mem_cons.mpr (Or.inr (List.mem_map.mpr ⟨q, hq, ?_⟩))
        rw [hst, hnm]
      all_goals
        simp only [check_field] at he
        rw [hm] at he
        simp at he

theorem checkFieldList_err (r : List String) (parent : String) : (fs : List SBField) →
    ∀ e : ReserveCheckError, checkFieldList r parent fs = .error e →
    (∃ q ∈ fieldListPaths fs, e.nameStack = q.1 ++ [parent] ∧ e.name = q.2) ∧
      e.matched ∈ r ∧ toSnakeCase e.name = toSnakeCase e.matched
  | [] => by
    intro e he
    simp only [checkFieldList] at he
    exact absurd he (by simp)
  | f :: fs => by
    intro e he
    have hcl : checkFieldList r parent (f :: fs) =
        match check_field r f with
        | .error e0 => .error (bubble e0 parent)
        | .ok _ => checkFieldList r parent fs := by
      simp only [checkFieldList]
    rw [hcl] at he
    cases hc : check_field r f with
    | error e0 =>
      rw [hc] at he
      injection he with he2
      obtain ⟨hpmem, hmem, hsnake⟩ := check_field_err r f e0 hc
      subst he2
      refine ⟨⟨(e0.nameStack, e0.name), ?_, by simp [bubble], by simp [bubble]⟩,
        by simp [bubble, hmem], by simp [bubble, hsnake]⟩
      rw [fieldListPaths_cons]
      exact List.mem_append.mpr (Or.inl hpmem)
    | ok u =>
      cases u
      rw [hc] at he
      obtain ⟨⟨q, hq, h1, h2⟩, hmem, hsnake⟩ := checkFieldList_err r parent fs e he
      refine ⟨⟨q, ?_, h1, h2⟩, hmem, hsnake⟩
      rw [fieldListPaths_cons]
      exact List.mem_append.mpr (Or.inr hq)
end

theorem checkVariants_err (r : List String) (en : String) :
    ∀ (vs : List EnumVariant) (e : ReserveCheckError),
      checkVariants r en vs = .error e →
      (e.nameStack, e.name) ∈ vs.map (fun v => ([en], v.name)) ∧ e.matched ∈ r ∧
        toSnakeCase e.name = toSnakeCase e.matched := by
  intro vs
  induction vs with
  | nil =>
    intro e he
    simp only [checkVariants] at he
    exact absurd he (by simp)
  | cons v vs ih =>
    intro e he
    simp only [checkVariants] at he
    cases hm : find_match v.name r with
    | some m =>
      rw [hm] at he
      injection he with he2
      subst he2
      obtain ⟨hmem, hsnake⟩ := find_match_some hm
      exact ⟨by simp [bubble], by simp [bubble, hmem], by simp [bubble, hsnake]⟩
    | none =>
      rw [hm] at he
      obtain ⟨hp, hmem, hsnake⟩ := ih e he
      exact ⟨by simp at hp ⊢; exact Or.inr hp, hmem, hsnake⟩

theorem checkEnums_err (r : List String) :
    ∀ (es : List Enum) (e : ReserveCheckError),
      checkEnums r es = .error e →
      (e.nameStack, e.name) ∈ enumPaths es ∧ e.matched ∈ r ∧
        toSnakeCase e.name = toSnakeCase e.matched := by
  intro es
  induction es with
  | nil =>
    intro e he
    simp only [checkEnums] at he
    exact absurd he (by simp)
  | cons en es ih =>
    intro e he
    simp only [checkEnums] at he
    cases hm : find_match en.name r with
    | some m =>
      rw [hm] at he
      injection he with he2
      subst he2
      obtain ⟨hmem, hsnake⟩ := find_match_some hm
      refine ⟨?_, hmem, hsnake⟩
      simp only [enumPaths]
      simp
    | none =>
      rw [hm] at he
      cases hv : checkVariants r en.name en.variants with
      | error e2 =>
        rw [hv] at he
        injection he with he2
        subst he2
        obtain ⟨hp, hmem, hsnake⟩ := checkVariants_err r en.name en.variants e2 hv
        refine ⟨?_, hmem, hsnake⟩
        simp only [enumPaths]
        exact List.mem_append.mpr (Or.inl (List.mem_cons.mpr (Or.inr hp)))
      | ok u =>
        cases u
        rw [hv] at he
        obtain ⟨hp, hmem, hsnake⟩ := ih e he
        refine ⟨?_, hmem, hsnake⟩
        simp only [enumPaths]
        exact List.mem_append.mpr (Or.inr hp)

theorem checkSeqs_err (r : List String) :
    ∀ (ss : List Sequence) (e : ReserveCheckError),
      checkSeqs r ss = .error e →
      (e.nameStack, e.name) ∈ seqPaths ss ∧ e.matched ∈ r ∧
        toSnakeCase e.name = toSnakeCase e.matched := by
  intro ss
  induction ss with
  | nil =>
    intro e he
    simp only [checkSeqs] at he
    exact absurd he (by simp)
  | cons s ss ih =>
    intro e he
    simp only [checkSeqs] at he
    cases hm : find_match s.name r with
    | some m =>
      rw [hm] at he
      injection he with he2
      subst he2
      obtain ⟨hmem, hsnake⟩ := find_match_some hm
      refine ⟨?_, hmem, hsnake⟩
      simp only [seqPaths]
      simp
    | none =>
      rw [hm] at he
      cases hf : checkFieldList r s.name s.fields with
      | error e2 =>
        rw [hf] at he
        injection he with he2
        subst he2
        obtain ⟨⟨q, hq, h1, h2⟩, hmem, hsnake⟩ := checkFieldList_err r s.name s.fields e2 hf
        refine ⟨?_, hmem, hsnake⟩
        simp only [seqPaths]
        refine List.mem_append.mpr (Or.inl (List.mem_cons.mpr (Or.inr
          (List.mem_map.mpr ⟨q, hq, ?_⟩))))
        rw [h1, h2]
      | ok u =>
        cases u
        rw [hf] at he
        obtain ⟨hp, hmem, hsnake⟩ := ih e he
        refine ⟨?_, hmem, hsnake⟩
        simp only [seqPaths]
        exact List.mem_append.mpr (Or.inr hp)

theorem check_reserved_err {s : SBSchema} {r : List String} {e : ReserveCheckError}
    (he : check_reserved s r = .error e) :
    (e.nameStack, e.name) ∈ schemaCheckedPaths s ∧ e.matched ∈ r ∧
      toSnakeCase e.name = toSnakeCase e.matched := by
  simp only [check_reserved] at he
  cases hc : checkEnums r s.enums with
  | error e2 =>
    rw [hc] at he
    injection he with he2
    subst he2
    obtain ⟨hp, hmem, hsnake⟩ := checkEnums_err r s.enums e2 hc
    refine ⟨?_, hmem, hsnake⟩
    simp only [schemaCheckedPaths]
    exact List.mem_append.mpr (Or.inl hp)
  | ok u =>
    cases u
    rw [hc] at he
    obtain ⟨hp, hmem, hsnake⟩ := checkSeqs_err r s.sequences e he
    refine ⟨?_, hmem, hsnake⟩
    simp only [schemaCheckedPaths]
    exact List.mem_append.mpr (Or.inr hp)

/-- C7 (amended): the reserved-identifier check fails exactly when some name
it traverses — a sequence name, an enum name, an enum variant name, or a
field name reachable through chains of directly-nested oneof types (but not
through array types, which the check does not descend into) — coincides with
a reserved word after snake_case normalization; and the returned error
carries a traversed (context stack, name) pair together with the matched
reserved word, to which the offending name is normalization-equal. -/
theorem c7_reserved_check :
    (∀ (s : SBSchema) (r : List String),
      isErrB (check_reserved s r) = true ↔
        ∃ p ∈ schemaCheckedPaths s, (find_match p.2 r).isSome) ∧
    (∀ (s : SBSchema) (r : List String) (e : ReserveCheckError),
      check_reserved s r = .error e →
      (e.nameStack, e.name) ∈ schemaCheckedPaths s ∧ e.matched ∈ r ∧
        toSnakeCase e.name = toSnakeCase e.matched) := by
  constructor
  · intro s r
    constructor
    · intro herr
      by_contra hno
      push_neg at hno
      have hok : check_reserved s r = .ok () := (check_reserved_ok s r).mpr (by
        intro p hp
        have := hno p hp
        cases hfm : find_match p.2 r with
        | none => rfl
        | some m => rw [hfm] at this; simp at this)
      rw [hok] at herr
      simp [isErrB] at herr
    · rintro ⟨p, hp, hsome⟩
      cases hres : check_reserved s r with
      | error e => rfl
      | ok u =>
        cases u
        have := (check_reserved_ok s r).mp hres p hp
        rw [this] at hsome
        simp at hsome
  · intro s r e he
    exact check_reserved_err he

/-- A schema with one sequence `S` holding a field named `while`, and the
reserved list containing `while`. -/
def c7wschema : SBSchema := ⟨[⟨"S", [.mk "while" (.primitive .u8) 0]⟩], []⟩

/-- Witness for the amended C7 theorem: on `c7wschema` with reserved word
`while`, the check fails, and the error identifies the path `S::while` and
the matched word `while`. -/
theorem c7_reserved_check_witness :
    isErrB (check_reserved c7wschema ["while"]) = true ∧
    check_reserved c7wschema ["while"] =
      .error ⟨.field, ["S"], "while", "while"⟩ ∧
    ((["S"], "while") ∈ schemaCheckedPaths c7wschema ∧ "while" ∈ ["while"] ∧
      toSnakeCase "while" = toSnakeCase "while") := by
  have herr : check_reserved c7wschema ["while"] =
      .error ⟨.field, ["S"], "while", "while"⟩ := rfl
  have hp := c7_reserved_check.2 c7wschema ["while"] ⟨.field, ["S"], "while", "while"⟩ herr
  exact ⟨by rw [herr]; rfl, herr, hp⟩

/-! ## Declaration-order independence (claim C2) -/

/-- Two symbol tables that agree on every lookup.  The Rust `HashMap` is
insertion-order independent, so association lists that are lookup-equal model
the same hash map. -/
def lookupEq (m m' : StructMap) : Prop :=
  ∀ k : String, List.lookup k m = List.lookup k m'

/-- Whether a node is not a sequence or enum declaration. -/
def notDecl : AstNode → Bool
  | .seqDecl _ _ => false
  | .enumDecl _ _ => false
  | _ => true

theorem verify_congr {m m' : StructMap} (h : lookupEq m m') (name : String) :
    verify_struct_name name m = verify_struct_name name m' := by
  unfold verify_struct_name
  rw [h name]

mutual
theorem parse_type_congr {m m' : StructMap} (h : lookupEq m m') : (t : AstNode) →
    parse_type m t = parse_type m' t
  | .typeRef name => by
    simp only [parse_type]
    rw [h name]
  | .arrayType t => by
    simp only [parse_type]
    rw [parse_type_congr h t]
  | .oneOfType fields => by
    simp only [parse_type]
    rw [parseOneOfFields_congr h fields 0 []]
  | .file cs => by simp only [parse_type]
  | .seqDecl n cs => by simp only [parse_type]
  | .fieldDecl n c => by simp only [parse_type]
  | .enumDecl n cs => by simp only [parse_type]
  | .enumEntry n v => by simp only [parse_type]

theorem parseOneOfFields_congr {m m' : StructMap} (h : lookupEq m m') :
    (fields : List AstNode) → (i : Nat) → (names : List String) →
      parseOneOfFields m fields i names = parseOneOfFields m' fields i names
  | [], i, names => by simp only [parseOneOfFields]
  | .fieldDecl fname ftype :: rest, i, names => by
    simp only [parseOneOfFields]
    rw [parse_type_congr h ftype, parseOneOfFields_congr h rest (i + 1) (names ++ [fname])]
  | .file cs :: rest, i, names => by simp only [parseOneOfFields]
  | .seqDecl n cs :: rest, i, names => by simp only [parseOneOfFields]
  | .enumDecl n cs :: rest, i, names => by simp only [parseOneOfFields]
  | .enumEntry n v :: rest, i, names => by simp only [parseOneOfFields]
  | .typeRef n :: rest, i, names => by simp only [parseOneOfFields]
  | .arrayType c :: rest, i, names => by simp only [parseOneOfFields]
  | .oneOfType cs :: rest, i, names => by simp only [parseOneOfFields]
end

theorem parseSeqFields_congr {m m' : StructMap} (h : lookupEq m m') (sname : String) :
    ∀ (fields : List AstNode) (names : List String) (off : Nat),
      parseSeqFields sname m fields names off = parseSeqFields sname m' fields names off := by
  intro fields
  induction fields with
  | nil =>
    intro names off
    simp only [parseSeqFields]
  | cons f rest ih =>
    intro names off
    cases f
    case fieldDecl fname ftype =>
      simp only [parseSeqFields]
      rw [parse_type_congr h ftype]
      simp only [ih]
    all_goals simp only [parseSeqFields]

theorem parse_sequence_congr {m m' : StructMap} (h : lookupEq m m')
    (name : String) (fields : List AstNode) :
    parse_sequence name fields m = parse_sequence name fields m' := by
  unfold parse_sequence
  rw [parseSeqFields_congr h name fields [] 0]

theorem parseTopLevel_congr {m m' : StructMap} (h : lookupEq m m') :
    ∀ children : List AstNode, parseTopLevel m children = parseTopLevel m' children := by
  intro children
  induction children with
  | nil => simp only [parseTopLevel]
  | cons t rest ih =>
    cases t
    case seqDecl name fields =>
      simp only [parseTopLevel]
      rw [parse_sequence_congr h name fields, ih]
    case enumDecl name entries =>
      simp only [parseTopLevel]
      rw [ih]
    all_goals simp only [parseTopLevel]

/-- A sequence or enum declaration node carrying an explicit `StructType` tag;
this lets the two top-level declaration kinds be treated uniformly in the
name-collection lemmas. -/
def mkDecl (n : String) (t : StructType) (cs : List AstNode) : AstNode :=
  match t with
  | .sequence => .seqDecl n cs
  | .enum => .enumDecl n cs

/-- The concrete schema of claim C2 with the sequence declared first. -/
def c2a : AstNode :=
  .file [.seqDecl "S" [.fieldDecl "f" (.typeRef "E")],
         .enumDecl "E" [.enumEntry "A" "300"]]

/-- The concrete schema of claim C2 with the enum declared first. -/
def c2b : AstNode :=
  .file [.enumDecl "E" [.enumEntry "A" "300"],
         .seqDecl "S" [.fieldDecl "f" (.typeRef "E")]]

/-- The resolved schema both declaration orders of claim C2 compile to. -/
def c2schema : SBSchema :=
  ⟨[⟨"S", [.mk "f" (.enumRef "E" 2) 0]⟩], [⟨"E", 2, [⟨"A", 300⟩]⟩]⟩

theorem lookupEq_cons {m m' : StructMap} (h : lookupEq m m') (n : String) (t : StructType) :
    lookupEq ((n, t) :: m) ((n, t) :: m') := by
  intro k
  cases hkn : (k == n) <;> simp [List.lookup_cons, hkn, h k]

theorem lookupEq_swap {n1 n2 : String} (hne : n1 ≠ n2) (t1 t2 : StructType) (m : StructMap) :
    lookupEq ((n1, t1) :: (n2, t2) :: m) ((n2, t2) :: (n1, t1) :: m) := by
  intro k
  cases hk1 : (k == n1) <;> cases hk2 : (k == n2) <;>
    simp [List.lookup_cons, hk1, hk2]
  exact absurd ((eq_of_beq hk1).symm.trans (eq_of_beq hk2)) hne

theorem verify_struct_name_iff {name : String} {m : StructMap} :
    verify_struct_name name m = .ok () ↔
      ((PRIMITIVES.map Prod.fst).contains name = false ∧ List.lookup name m = none) := by
  unfold verify_struct_name
  split_ifs with hp hl
  · refine iff_of_false (by simp) ?_
    rintro ⟨h1, h2⟩
    rw [hp] at h1
    exact absurd h1 (by simp)
  · refine iff_of_false (by simp) ?_
    rintro ⟨h1, h2⟩
    rw [h2] at hl
    simp at hl
  · simp only [Bool.not_eq_true] at hp
    simp only [Option.not_isSome_iff_eq_none] at hl
    exact iff_of_true rfl ⟨hp, hl⟩

theorem dfs_mkDecl (n : String) (t : StructType) (cs : List AstNode) :
    AstNode.dfs (mkDecl n t cs) = mkDecl n t cs :: AstNode.dfsList cs := by
  cases t <;> simp only [mkDecl, AstNode.dfs]

theorem collectNames_mkDecl (n : String) (t : StructType) (cs : List AstNode)
    (l : List AstNode) (m : StructMap) :
    collectNames (mkDecl n t cs :: l) m =
      match verify_struct_name n m with
      | .error e => .error e
      | .ok _ => collectNames l ((n, t) :: m) := by
  cases t <;> simp only [mkDecl, collectNames]

theorem collectNames_skip :
    ∀ (l rest : List AstNode) (m : StructMap),
      (∀ x ∈ l, notDecl x = true) →
      collectNames (l ++ rest) m = collectNames rest m := by
  intro l
  induction l with
  | nil =>
    intro rest m h
    rfl
  | cons x xs ih =>
    intro rest m h
    have hx : notDecl x = true := h x (List.mem_cons_self x xs)
    have hxs : ∀ y ∈ xs, notDecl y = true := fun y hy => h y (List.mem_cons_of_mem x hy)
    cases x
    case seqDecl n f => simp [notDecl] at hx
    case enumDecl n f => simp [notDecl] at hx
    all_goals simp only [List.cons_append, collectNames]
    all_goals exact ih rest m hxs

theorem dfsList_append : ∀ (l1 l2 : List AstNode),
    AstNode.dfsList (l1 ++ l2) = AstNode.dfsList l1 ++ AstNode.dfsList l2 := by
  intro l1
  induction l1 with
  | nil =>
    intro l2
    simp only [List.nil_append, AstNode.dfsList]
  | cons c cs ih =>
    intro l2
    simp only [List.cons_append, AstNode.dfsList, List.append_eq]
    rw [ih, List.append_assoc]

theorem collectNames_append :
    ∀ (l1 l2 : List AstNode) (m : StructMap),
      collectNames (l1 ++ l2) m =
        match collectNames l1 m with
        | .error e => .error e
        | .ok m1 => collectNames l2 m1 := by
  intro l1
  induction l1 with
  | nil =>
    intro l2 m
    rfl
  | cons n rest ih =>
    intro l2 m
    cases n
    case seqDecl name fields =>
      simp only [List.cons_append, collectNames]
      cases verify_struct_name name m with
      | error e => rfl
      | ok u => exact ih l2 ((name, .sequence) :: m)
    case enumDecl name entries =>
      simp only [List.cons_append, collectNames]
      cases verify_struct_name name m with
      | error e => rfl
      | ok u => exact ih l2 ((name, .enum) :: m)
    all_goals simp only [List.cons_append, collectNames]
    all_goals exact ih l2 m

theorem collectNames_append_ok_inv {l1 l2 : List AstNode} {m mf : StructMap}
    (h : collectNames (l1 ++ l2) m = .ok mf) :
    ∃ m1, collectNames l1 m = .ok m1 ∧ collectNames l2 m1 = .ok mf := by
  rw [collectNames_append] at h
  cases hc : collectNames l1 m with
  | error e =>
    rw [hc] at h
    exact absurd h (by simp)
  | ok m1 =>
    rw [hc] at h
    exact ⟨m1, rfl, h⟩

theorem collectNames_append_ok {l1 l2 : List AstNode} {m m1 mf : StructMap}
    (h1 : collectNames l1 m = .ok m1) (h2 : collectNames l2 m1 = .ok mf) :
    collectNames (l1 ++ l2) m = .ok mf := by
  rw [collectNames_append, h1]
  exact h2

theorem collectNames_congr :
    ∀ (l : List AstNode) {m m' mf : StructMap}, lookupEq m m' →
      collectNames l m = .ok mf →
      ∃ mf', collectNames l m' = .ok mf' ∧ lookupEq mf mf' := by
  intro l
  induction l with
  | nil =>
    intro m m' mf h hc
    injection hc with hc1
    exact ⟨m', rfl, hc1 ▸ h⟩
  | cons n rest ih =>
    intro m m' mf h hc
    cases n
    case seqDecl name fields =>
      simp only [collectNames] at hc ⊢
      rw [verify_congr h name] at hc
      cases hv : verify_struct_name name m' with
      | error e =>
        rw [hv] at hc
        exact absurd hc (by simp)
      | ok u =>
        rw [hv] at hc
        exact ih (lookupEq_cons h name .sequence) hc
    case enumDecl name entries =>
      simp only [collectNames] at hc ⊢
      rw [verify_congr h name] at hc
      cases hv : verify_struct_name name m' with
      | error e =>
        rw [hv] at hc
        exact absurd hc (by simp)
      | ok u =>
        rw [hv] at hc
        exact ih (lookupEq_cons h name .enum) hc
    all_goals simp only [collectNames] at hc ⊢
    all_goals exact ih h hc

theorem collect_two_eq {c1 c2 : List AstNode} {n1 n2 : String} {t1 t2 : StructType}
    (h1 : ∀ x ∈ AstNode.dfsList c1, notDecl x = true)
    (h2 : ∀ x ∈ AstNode.dfsList c2, notDecl x = true)
    (rest : List AstNode) (m : StructMap) :
    collectNames (AstNode.dfs (mkDecl n1 t1 c1) ++ (AstNode.dfs (mkDecl n2 t2 c2) ++ rest)) m =
      match verify_struct_name n1 m with
      | .error e => .error e
      | .ok _ =>
        match verify_struct_name n2 ((n1, t1) :: m) with
        | .error e => .error e
        | .ok _ => collectNames rest ((n2, t2) :: (n1, t1) :: m) := by
  rw [dfs_mkDecl, dfs_mkDecl]
  simp only [List.cons_append]
  rw [collectNames_mkDecl]
  cases verify_struct_name n1 m with
  | error e => rfl
  | ok u =>
    show collectNames (AstNode.dfsList c1 ++ (mkDecl n2 t2 c2 :: (AstNode.dfsList c2 ++ rest)))
        ((n1, t1) :: m) = _
    rw [collectNames_skip _ _ _ h1, collectNames_mkDecl]
    cases verify_struct_name n2 ((n1, t1) :: m) with
    | error e => rfl
    | ok u2 =>
      exact collectNames_skip _ _ _ h2

theorem collectNames_swap_ok (n1 : String) (t1 : StructType) (c1 : List AstNode)
    (n2 : String) (t2 : StructType) (c2 : List AstNode) (rest : List AstNode)
    {m mf : StructMap}
    (h1 : ∀ x ∈ AstNode.dfsList c1, notDecl x = true)
    (h2 : ∀ x ∈ AstNode.dfsList c2, notDecl x = true)
    (h : collectNames (AstNode.dfs (mkDecl n1 t1 c1) ++ (AstNode.dfs (mkDecl n2 t2 c2) ++ rest))
        m = .ok mf) :
    ∃ mf', collectNames (AstNode.dfs (mkDecl n2 t2 c2) ++ (AstNode.dfs (mkDecl n1 t1 c1) ++ rest))
        m = .ok mf' ∧ lookupEq mf mf' := by
  rw [collect_two_eq h1 h2] at h
  rw [collect_two_eq h2 h1]
  cases hv1 : verify_struct_name n1 m with
  | error e =>
    rw [hv1] at h
    exact absurd h (by simp)
  | ok u =>
    cases u
    rw [hv1] at h
    cases hv2 : verify_struct_name n2 ((n1, t1) :: m) with
    | error e =>
      rw [hv2] at h
      exact absurd h (by simp)
    | ok u2 =>
      cases u2
      rw [hv2] at h
      obtain ⟨hp1, hl1⟩ := verify_struct_name_iff.mp hv1
      obtain ⟨hp2, hlk2⟩ := verify_struct_name_iff.mp hv2
      obtain ⟨hne, hl2⟩ := lookup_cons_none hlk2
      have hv2m : verify_struct_name n2 m = .ok () := verify_struct_name_iff.mpr ⟨hp2, hl2⟩
      have hl1c : List.lookup n1 ((n2, t2) :: m) = none := by
        rw [List.lookup_cons]
        have : (n1 == n2) = false := by
          simp only [beq_eq_false_iff_ne]
          exact fun hx => hne hx.symm
        simp [this, hl1]
      have hv1m : verify_struct_name n1 ((n2, t2) :: m) = .ok () :=
        verify_struct_name_iff.mpr ⟨hp1, hl1c⟩
      rw [hv2m, hv1m]
      exact collectNames_congr rest (lookupEq_swap hne t2 t1 m) h

theorem parse_ast_file_ok_inv {ch : List AstNode} {s : SBSchema}
    (h : parse_ast (.file ch) = .ok s) :
    ∃ m ss es, collectNames (AstNode.dfsList ch) [] = .ok m ∧
      parseTopLevel m ch = .ok (ss, es) ∧ s = ⟨backfillAll es ss, es⟩ := by
  obtain ⟨m, ss, es, hc, hp, hs⟩ := parse_ast_file_inv h
  refine ⟨m, ss, es, ?_, hp, hs⟩
  have he : collectNames (AstNode.dfs (.file ch)) [] = collectNames (AstNode.dfsList ch) [] := by
    simp only [AstNode.dfs, collectNames]
  rw [← he]
  exact hc

theorem parse_ast_file_ok {ch : List AstNode} {m : StructMap} {ss : List Sequence}
    {es : List Enum}
    (hc : collectNames (AstNode.dfsList ch) [] = .ok m)
    (hp : parseTopLevel m ch = .ok (ss, es)) :
    parse_ast (.file ch) = .ok ⟨backfillAll es ss, es⟩ := by
  unfold parse_ast
  have he : collectNames (AstNode.dfs (.file ch)) [] = .ok m := by
    have hq : collectNames (AstNode.dfs (.file ch)) [] = collectNames (AstNode.dfsList ch) [] := by
      simp only [AstNode.dfs, collectNames]
    rw [hq]
    exact hc
  rw [he]
  show (match parseTopLevel m ch with
    | .error e => (.error e : Except String SBSchema)
    | .ok (ss, es) => .ok ⟨backfillAll es ss, es⟩) = .ok ⟨backfillAll es ss, es⟩
  rw [hp]

theorem parseTopLevel_append :
    ∀ (l1 l2 : List AstNode) (m : StructMap),
      parseTopLevel m (l1 ++ l2) =
        match parseTopLevel m l1 with
        | .error e => .error e
        | .ok (s1, e1) =>
          match parseTopLevel m l2 with
          | .error e => .error e
          | .ok (s2, e2) => .ok (s1 ++ s2, e1 ++ e2) := by
  intro l1
  induction l1 with
  | nil =>
    intro l2 m
    simp only [List.nil_append, parseTopLevel]
    cases parseTopLevel m l2 with
    | error e => rfl
    | ok p =>
      obtain ⟨s2, e2⟩ := p
      simp
  | cons t rest ih =>
    intro l2 m
    cases t
    case seqDecl name fields =>
      simp only [List.cons_append, parseTopLevel, List.append_eq]
      cases parse_sequence name fields m with
      | error e => rfl
      | ok s =>
        rw [ih]
        cases parseTopLevel m rest with
        | error e => rfl
        | ok p =>
          obtain ⟨s1, e1⟩ := p
          cases parseTopLevel m l2 with
          | error e => rfl
          | ok q =>
            obtain ⟨s2, e2⟩ := q
            simp
    case enumDecl name entries =>
      simp only [List.cons_append, parseTopLevel, List.append_eq]
      cases parse_enum name entries with
      | error e => rfl
      | ok en =>
        rw [ih]
        cases parseTopLevel m rest with
        | error e => rfl
        | ok p =>
          obtain ⟨s1, e1⟩ := p
          cases parseTopLevel m l2 with
          | error e => rfl
          | ok q =>
            obtain ⟨s2, e2⟩ := q
            simp
    all_goals simp only [List.cons_append, parseTopLevel]

theorem parseTopLevel_append_ok_inv {l1 l2 : List AstNode} {m : StructMap}
    {r : List Sequence × List Enum}
    (h : parseTopLevel m (l1 ++ l2) = .ok r) :
    ∃ r1 r2, parseTopLevel m l1 = .ok r1 ∧ parseTopLevel m l2 = .ok r2 ∧
      r = (r1.1 ++ r2.1, r1.2 ++ r2.2) := by
  rw [parseTopLevel_append] at h
  cases h1 : parseTopLevel m l1 with
  | error e =>
    rw [h1] at h
    exact absurd h (by simp)
  | ok p1 =>
    obtain ⟨s1, e1⟩ := p1
    rw [h1] at h
    cases h2 : parseTopLevel m l2 with
    | error e =>
      rw [h2] at h
      exact absurd h (by simp)
    | ok p2 =>
      obtain ⟨s2, e2⟩ := p2
      rw [h2] at h
      have h3 : (Except.ok (s1 ++ s2, e1 ++ e2) : Except String (List Sequence × List Enum))
          = .ok r := h
      injection h3 with h4
      exact ⟨(s1, e1), (s2, e2), rfl, rfl, h4.symm⟩

theorem parseTopLevel_append_ok {l1 l2 : List AstNode} {m : StructMap}
    {r1 r2 : List Sequence × List Enum}
    (h1 : parseTopLevel m l1 = .ok r1) (h2 : parseTopLevel m l2 = .ok r2) :
    parseTopLevel m (l1 ++ l2) = .ok (r1.1 ++ r2.1, r1.2 ++ r2.2) := by
  obtain ⟨s1, e1⟩ := r1
  obtain ⟨s2, e2⟩ := r2
  rw [parseTopLevel_append, h1, h2]

theorem parseTopLevel_swap_se {m : StructMap} {sn en : String} {sf ee post : List AstNode}
    {r : List Sequence × List Enum}
    (h : parseTopLevel m (.seqDecl sn sf :: .enumDecl en ee :: post) = .ok r) :
    parseTopLevel m (.enumDecl en ee :: .seqDecl sn sf :: post) = .ok r := by
  simp only [parseTopLevel] at h ⊢
  cases hs : parse_sequence sn sf m with
  | error e =>
    rw [hs] at h
    exact absurd h (by simp)
  | ok s =>
    rw [hs] at h
    cases he : parse_enum en ee with
    | error e =>
      rw [he] at h
      exact absurd h (by simp)
    | ok en1 =>
      rw [he] at h
      cases hp : parseTopLevel m post with
      | error e =>
        rw [hp] at h
        exact absurd h (by simp)
      | ok p =>
        obtain ⟨ss, es⟩ := p
        rw [hp] at h
        exact h

theorem parseTopLevel_swap_es {m : StructMap} {sn en : String} {sf ee post : List AstNode}
    {r : List Sequence × List Enum}
    (h : parseTopLevel m (.enumDecl en ee :: .seqDecl sn sf :: post) = .ok r) :
    parseTopLevel m (.seqDecl sn sf :: .enumDecl en ee :: post) = .ok r := by
  simp only [parseTopLevel] at h ⊢
  cases he : parse_enum en ee with
  | error e =>
    rw [he] at h
    exact absurd h (by simp)
  | ok en1 =>
    rw [he] at h
    cases hs : parse_sequence sn sf m with
    | error e =>
      rw [hs] at h
      exact absurd h (by simp)
    | ok s =>
      rw [hs] at h
      cases hp : parseTopLevel m post with
      | error e =>
        rw [hp] at h
        exact absurd h (by simp)
      | ok p =>
        obtain ⟨ss, es⟩ := p
        rw [hp] at h
        exact h

theorem parse_ast_swap_se
    {pre post sf ee : List AstNode} {sn en : String} {s : SBSchema}
    (h1 : ∀ x ∈ AstNode.dfsList sf, notDecl x = true)
    (h2 : ∀ x ∈ AstNode.dfsList ee, notDecl x = true)
    (h : parse_ast (.file (pre ++ .seqDecl sn sf :: .enumDecl en ee :: post)) = .ok s) :
    parse_ast (.file (pre ++ .enumDecl en ee :: .seqDecl sn sf :: post)) = .ok s := by
  obtain ⟨m, ss, es, hc, hp, hs⟩ := parse_ast_file_ok_inv h
  have hshapeA : AstNode.dfsList (pre ++ .seqDecl sn sf :: .enumDecl en ee :: post)
      = AstNode.dfsList pre ++ (AstNode.dfs (.seqDecl sn sf)
          ++ (AstNode.dfs (.enumDecl en ee) ++ AstNode.dfsList post)) := by
    rw [dfsList_append]
    simp only [AstNode.dfsList]
  rw [hshapeA] at hc
  obtain ⟨m0, hc0, hcm⟩ := collectNames_append_ok_inv hc
  obtain ⟨m1, hcmB, hmm1⟩ :=
    collectNames_swap_ok sn .sequence sf en .enum ee (AstNode.dfsList post) h1 h2 hcm
  have hcB : collectNames
      (AstNode.dfsList (pre ++ .enumDecl en ee :: .seqDecl sn sf :: post)) [] = .ok m1 := by
    have hshapeB : AstNode.dfsList (pre ++ .enumDecl en ee :: .seqDecl sn sf :: post)
        = AstNode.dfsList pre ++ (AstNode.dfs (.enumDecl en ee)
            ++ (AstNode.dfs (.seqDecl sn sf) ++ AstNode.dfsList post)) := by
      rw [dfsList_append]
      simp only [AstNode.dfsList]
    rw [hshapeB]
    exact collectNames_append_ok hc0 hcmB
  obtain ⟨r1, r2, hp1, hp2, hr⟩ := parseTopLevel_append_ok_inv hp
  have hp2B := parseTopLevel_swap_se hp2
  have hcongr := parseTopLevel_congr hmm1
  have hp1B : parseTopLevel m1 pre = .ok r1 := by
    rw [← hcongr pre]
    exact hp1
  have hp2B1 : parseTopLevel m1 (.enumDecl en ee :: .seqDecl sn sf :: post) = .ok r2 := by
    rw [← hcongr (.enumDecl en ee :: .seqDecl sn sf :: post)]
    exact hp2B
  have hpB := parseTopLevel_append_ok hp1B hp2B1
  rw [← hr] at hpB
  rw [hs]
  exact parse_ast_file_ok hcB hpB

theorem parse_ast_swap_es
    {pre post sf ee : List AstNode} {sn en : String} {s : SBSchema}
    (h1 : ∀ x ∈ AstNode.dfsList sf, notDecl x = true)
    (h2 : ∀ x ∈ AstNode.dfsList ee, notDecl x = true)
    (h : parse_ast (.file (pre ++ .enumDecl en ee :: .seqDecl sn sf :: post)) = .ok s) :
    parse_ast (.file (pre ++ .seqDecl sn sf :: .enumDecl en ee :: post)) = .ok s := by
  obtain ⟨m, ss, es, hc, hp, hs⟩ := parse_ast_file_ok_inv h
  have hshapeA : AstNode.dfsList (pre ++ .enumDecl en ee :: .seqDecl sn sf :: post)
      = AstNode.dfsList pre ++ (AstNode.dfs (.enumDecl en ee)
          ++ (AstNode.dfs (.seqDecl sn sf) ++ AstNode.dfsList post)) := by
    rw [dfsList_append]
    simp only [AstNode.dfsList]
  rw [hshapeA] at hc
  obtain ⟨m0, hc0, hcm⟩ := collectNames_append_ok_inv hc
  obtain ⟨m1, hcmB, hmm1⟩ :=
    collectNames_swap_ok en .enum ee sn .sequence sf (AstNode.dfsList post) h2 h1 hcm
  have hcB : collectNames
      (AstNode.dfsList (pre ++ .seqDecl sn sf :: .enumDecl en ee :: post)) [] = .ok m1 := by
    have hshapeB : AstNode.dfsList (pre ++ .seqDecl sn sf :: .enumDecl en ee :: post)
        = AstNode.dfsList pre ++ (AstNode.dfs (.seqDecl sn sf)
            ++ (AstNode.dfs (.enumDecl en ee) ++ AstNode.dfsList post)) := by
      rw [dfsList_append]
      simp only [AstNode.dfsList]
    rw [hshapeB]
    exact collectNames_append_ok hc0 hcmB
  obtain ⟨r1, r2, hp1, hp2, hr⟩ := parseTopLevel_append_ok_inv hp
  have hp2B := parseTopLevel_swap_es hp2
  have hcongr := parseTopLevel_congr hmm1
  have hp1B : parseTopLevel m1 pre = .ok r1 := by
    rw [← hcongr pre]
    exact hp1
  have hp2B1 : parseTopLevel m1 (.seqDecl sn sf :: .enumDecl en ee :: post) = .ok r2 := by
    rw [← hcongr (.seqDecl sn sf :: .enumDecl en ee :: post)]
    exact hp2B
  have hpB := parseTopLevel_append_ok hp1B hp2B1
  rw [← hr] at hpB
  rw [hs]
  exact parse_ast_file_ok hcB hpB

/-- Claim C2: declaration order of a sequence and an enum it references does not
affect the resolved schema.  For any file in which a sequence declaration and an
enum declaration are adjacent (with arbitrary other declarations before and
after, and with the bodies of the two declarations containing no nested
sequence or enum declarations, as the grammar guarantees), compiling with the
sequence first succeeds with result `s` exactly when compiling with the enum
first succeeds with the same result `s`.  In particular the two concrete
schemas of the claim, `sequence S { f: E; } enum E { A = 300; }` in
both orders, compile to the same resolved schema: enum `E` of size 2 and
sequence `S` whose field `f` has enum type `E` with injected size 2 at
offset 0. -/
theorem c2_order_independence :
    (∀ (pre post sf ee : List AstNode) (sn en : String) (s : SBSchema),
        (∀ x ∈ AstNode.dfsList sf, notDecl x = true) →
        (∀ x ∈ AstNode.dfsList ee, notDecl x = true) →
        (parse_ast (.file (pre ++ .seqDecl sn sf :: .enumDecl en ee :: post)) = .ok s ↔
          parse_ast (.file (pre ++ .enumDecl en ee :: .seqDecl sn sf :: post)) = .ok s)) ∧
    parse_ast c2a = .ok c2schema ∧ parse_ast c2b = .ok c2schema := by
  refine ⟨fun pre post sf ee sn en s h1 h2 =>
    ⟨parse_ast_swap_se h1 h2, parse_ast_swap_es h1 h2⟩, rfl, rfl⟩

/-- Witness for C2: the general order-independence statement applied at the
concrete claim schemas, discharging the no-nested-declaration hypotheses by
evaluation, recovers the enum-first compilation result from the
sequence-first one. -/
theorem c2_order_independence_witness : parse_ast c2b = .ok c2schema :=
  (c2_order_independence.1 [] [] [.fieldDecl "f" (.typeRef "E")] [.enumEntry "A" "300"]
      "S" "E" c2schema (by decide) (by decide)).mp c2_order_independence.2.1

end SimpleBuffers
